import Mathlib

/-!
# Verification of `proxycache` (`proxy/loader.go`)

A shallow embedding of the single-flight `Loader` from `proxy/loader.go`:

* `Loader.Load(key)` collapses concurrent loads for the same key onto one
  in-flight record (`loadResult`), with one owner goroutine performing the
  underlying `ProxyLoader.Load` call and all other callers waiting on the
  record's `done` channel.
* The `proc` gate bounds how many owners run the underlying load at once:
  `<-l.start` acquires a token, `l.start <- struct{}{}` releases it, and the
  background goroutine started in `NewLoader` (`for { <-l.quit; <-l.start }`)
  consumes one token per shrink signal.
* `Loader.Status()` reports `maxProc`, `maxProc - len(start)` and
  `len(inFlight)` under both mutexes.

The embedding is a small-step transition system: each `Caller` is one
invocation of `Load`, decomposed at the concurrency-relevant program points
of the Go source.  Records carry ghost fields (`owner`, `invocations`,
`writes`, `inMap`) that count events without influencing behaviour.  The
underlying capability is a pure function `Key → Option (Value × Bool)`;
`none` models an abnormal exit (panic) of `ProxyLoader.Load`, in which case
the owner goroutine dies at that statement and executes nothing further,
exactly as in Go where no `defer` protects the release/close statements.

The `proc` struct itself (`newProc`) is not part of the visible source; its
construction is modelled from the spec, see `Proc`.
-/

namespace ProxyCache

/-- Keys are opaque strings (`key string` in Go). -/
abbrev Key := String

/-- Values are opaque byte sequences (`value []byte` in Go). -/
abbrev Value := List Nat

/-- The external load capability `ProxyLoader.Load`.  `some (v, ok)` is a
normal return; `none` models an abnormal exit (panic) during the call. -/
abbrev Capability := Key → Option (Value × Bool)

/-- Program points of one `Loader.Load` invocation, following the statement
order of the Go source.  An owner for record `rid` passes through
`acquiring → invoking → releasing → closing → deleting → returning →
finished`; a panic at the capability call leads to `crashed` instead, after
which the goroutine executes nothing further.  A caller that found an
existing record waits at `waiting` and moves to `finished` once the record's
`done` channel is closed. -/
inductive PC where
  | ready : PC
  | waiting : Nat → PC
  | acquiring : Nat → PC
  | invoking : Nat → PC
  | releasing : Nat → PC
  | closing : Nat → PC
  | deleting : Nat → PC
  | returning : Nat → PC
  | finished : Nat → Value → Bool → PC
  | crashed : Nat → PC
  deriving Repr, DecidableEq

/-- One `loadResult` record.  `done`, `value`, `ok` mirror the Go struct
(`done chan struct{}` is modelled by whether it has been closed).  The
remaining fields are ghost instrumentation: `owner` is the index of the
caller that created the record, `invocations` counts capability calls made
for this record, `writes` counts writes to `(value, ok)`, and `inMap` says
whether `l.inFlight[key]` currently points at this record. -/
structure LoadResult where
  key : Key
  done : Bool
  value : Value
  ok : Bool
  owner : Nat
  invocations : Nat
  writes : Nat
  inMap : Bool
  deriving Repr, DecidableEq

/-- Modelled from the spec: the `proc` gate, whose struct and constructor
`newProc` are not in the visible source (only its callers are).  Per the
spec, `Construct(maxCapacity)` initializes `maxCapacity` admission tokens,
all available, in the `start` channel; `maxProc` is the capacity figure read
by `Status`.  `start` is the number of tokens currently in the channel.
`shrinkStage` is the state of the background goroutine of `NewLoader`:
`false` while it blocks at `<-l.quit`, `true` while it blocks at
`<-l.start`.  `shrinks` is a ghost counter of fully processed shrink
signals. -/
structure Proc where
  maxProc : Nat
  start : Nat
  shrinkStage : Bool
  shrinks : Nat
  deriving Repr, DecidableEq

/-- One caller of `Loader.Load`: the key it was called with and its current
program point. -/
structure Caller where
  key : Key
  pc : PC
  deriving Repr, DecidableEq

/-- The whole state: every record ever created (`recs`, indexed by creation
order; the Go map `inFlight` is the set of records with `inMap = true`),
the gate, and the callers. -/
structure Loader where
  recs : List LoadResult
  proc : Proc
  threads : List Caller
  deriving Repr, DecidableEq

/-- Initial state: `NewLoader(p, maxProc)` with an empty in-flight map and a
full token pool, plus one pending `Load` caller per element of `keys`. -/
def initLoader (maxProc : Nat) (keys : List Key) : Loader :=
  { recs := []
    proc := { maxProc := maxProc, start := maxProc, shrinkStage := false, shrinks := 0 }
    threads := keys.map fun k => { key := k, pc := .ready } }

/-- The fresh record created by the owner:
`&loadResult{done: make(chan struct{})}` inserted into `l.inFlight[key]`. -/
def newRec (k : Key) (owner : Nat) : LoadResult :=
  { key := k, done := false, value := [], ok := false
    owner := owner, invocations := 0, writes := 0, inMap := true }

/-- Small-step transition relation of the system, one constructor per atomic
action of the Go source.  Map lookup/insert/delete are single steps because
the Go code holds `l.mtx` across them. -/
inductive Step (cap : Capability) : Loader → Loader → Prop where
  /-- `Load` step 1, record found: the caller saw `l.inFlight[key]` under
  the lock and proceeds to `<-f.done`. -/
  | registerWaiter (s : Loader) (i rid : Nat) (t : Caller) (r : LoadResult)
      (ht : s.threads[i]? = some t) (hpc : t.pc = .ready)
      (hr : s.recs[rid]? = some r) (hin : r.inMap = true) (hk : r.key = t.key) :
      Step cap s { s with threads := s.threads.set i { t with pc := .waiting rid } }
  /-- `Load` step 1, no record: the caller creates and inserts a fresh
  record under the lock and becomes the owner, heading to `<-l.start`. -/
  | registerOwner (s : Loader) (i : Nat) (t : Caller)
      (ht : s.threads[i]? = some t) (hpc : t.pc = .ready)
      (hnone : ∀ r ∈ s.recs, ¬(r.inMap = true ∧ r.key = t.key)) :
      Step cap s { s with
        recs := s.recs ++ [newRec t.key i]
        threads := s.threads.set i { t with pc := .acquiring s.recs.length } }
  /-- A waiter's `<-f.done` completes (only once the channel is closed); the
  waiter returns `f.value, f.ok`. -/
  | waitDone (s : Loader) (i rid : Nat) (t : Caller) (r : LoadResult)
      (ht : s.threads[i]? = some t) (hpc : t.pc = .waiting rid)
      (hr : s.recs[rid]? = some r) (hdone : r.done = true) :
      Step cap s { s with
        threads := s.threads.set i { t with pc := .finished rid r.value r.ok } }
  /-- The owner's `<-l.start` completes (only while a token is available). -/
  | acquire (s : Loader) (i rid : Nat) (t : Caller)
      (ht : s.threads[i]? = some t) (hpc : t.pc = .acquiring rid)
      (htok : 0 < s.proc.start) :
      Step cap s { s with
        proc := { s.proc with start := s.proc.start - 1 }
        threads := s.threads.set i { t with pc := .invoking rid } }
  /-- `f.value, f.ok = l.p.Load(key)` returns normally: the result is
  written into the record. -/
  | invokeOk (s : Loader) (i rid : Nat) (t : Caller) (r : LoadResult)
      (v : Value) (ok : Bool)
      (ht : s.threads[i]? = some t) (hpc : t.pc = .invoking rid)
      (hr : s.recs[rid]? = some r) (hcap : cap t.key = some (v, ok)) :
      Step cap s { s with
        recs := s.recs.set rid { r with
          value := v, ok := ok
          invocations := r.invocations + 1, writes := r.writes + 1 }
        threads := s.threads.set i { t with pc := .releasing rid } }
  /-- `l.p.Load(key)` panics: the goroutine dies here; no release, no close,
  no delete ever execute for this record (there is no `defer` in `Load`). -/
  | invokePanic (s : Loader) (i rid : Nat) (t : Caller) (r : LoadResult)
      (ht : s.threads[i]? = some t) (hpc : t.pc = .invoking rid)
      (hr : s.recs[rid]? = some r) (hcap : cap t.key = none) :
      Step cap s { s with
        recs := s.recs.set rid { r with invocations := r.invocations + 1 }
        threads := s.threads.set i { t with pc := .crashed rid } }
  /-- `l.start <- struct{}{}`: the owner returns its token. -/
  | release (s : Loader) (i rid : Nat) (t : Caller)
      (ht : s.threads[i]? = some t) (hpc : t.pc = .releasing rid) :
      Step cap s { s with
        proc := { s.proc with start := s.proc.start + 1 }
        threads := s.threads.set i { t with pc := .closing rid } }
  /-- `close(f.done)`: the completion signal fires. -/
  | closeDone (s : Loader) (i rid : Nat) (t : Caller) (r : LoadResult)
      (ht : s.threads[i]? = some t) (hpc : t.pc = .closing rid)
      (hr : s.recs[rid]? = some r) :
      Step cap s { s with
        recs := s.recs.set rid { r with done := true }
        threads := s.threads.set i { t with pc := .deleting rid } }
  /-- `delete(l.inFlight, key)` under the lock. -/
  | deleteRec (s : Loader) (i rid : Nat) (t : Caller) (r : LoadResult)
      (ht : s.threads[i]? = some t) (hpc : t.pc = .deleting rid)
      (hr : s.recs[rid]? = some r) :
      Step cap s { s with
        recs := s.recs.set rid { r with inMap := false }
        threads := s.threads.set i { t with pc := .returning rid } }
  /-- `return f.value, f.ok` on the owner path. -/
  | ret (s : Loader) (i rid : Nat) (t : Caller) (r : LoadResult)
      (ht : s.threads[i]? = some t) (hpc : t.pc = .returning rid)
      (hr : s.recs[rid]? = some r) :
      Step cap s { s with
        threads := s.threads.set i { t with pc := .finished rid r.value r.ok } }
  /-- The background goroutine's `<-l.quit` receives a shrink signal. -/
  | shrinkSignal (s : Loader) (hq : s.proc.shrinkStage = false) :
      Step cap s { s with proc := { s.proc with shrinkStage := true } }
  /-- The background goroutine's `<-l.start` consumes one available token,
  completing one shrink (blocks while no token is available). -/
  | shrinkConsume (s : Loader) (hq : s.proc.shrinkStage = true)
      (htok : 0 < s.proc.start) :
      Step cap s { s with proc := { s.proc with
        start := s.proc.start - 1, shrinkStage := false
        shrinks := s.proc.shrinks + 1 } }

/-- Reachability: zero or more steps. -/
def Reach (cap : Capability) (s s' : Loader) : Prop :=
  Relation.ReflTransGen (Step cap) s s'

/-- `LoaderStatus` as in the Go source; fields are Go `int`s. -/
structure LoaderStatus where
  MaxLoaderProc : Int
  LoaderProc : Int
  InflightLoad : Int
  deriving Repr, DecidableEq

/-- `Loader.Status()`: under both mutexes it reads `l.proc.maxProc`,
`l.proc.maxProc - len(l.proc.start)` and `len(l.inFlight)`. -/
def Status (l : Loader) : LoaderStatus :=
  { MaxLoaderProc := (l.proc.maxProc : Int)
    LoaderProc := (l.proc.maxProc : Int) - (l.proc.start : Int)
    InflightLoad := ((l.recs.filter fun r => r.inMap).length : Int) }

/-- Whether a caller at this program point holds a gate token (acquired and
not yet released).  A `crashed` owner acquired a token and will never
release it. -/
def holdsToken : PC → Bool
  | .invoking _ => true
  | .releasing _ => true
  | .crashed _ => true
  | _ => false

/-- Number of tokens currently on loan (acquired, not yet released). -/
def tokenCount (ts : List Caller) : Nat :=
  (ts.filter fun t => holdsToken t.pc).length

/-- Total number of capability invocations performed for `k` so far. -/
def totalInvocations (s : Loader) (k : Key) : Nat :=
  ((s.recs.filter fun r => r.key == k).map fun r => r.invocations).sum

/-- The gate's effective maximum capacity: tokens that can still circulate,
i.e. the construction-time maximum minus fully processed shrink signals. -/
def effectiveMax (s : Loader) : Int :=
  (s.proc.maxProc : Int) - (s.proc.shrinks : Int)

/-! ## Basic list helpers -/

theorem lt_of_getElem?_some {α : Type _} {l : List α} {i : Nat} {a : α}
    (h : l[i]? = some a) : i < l.length :=
  (List.getElem?_eq_some_iff.mp h).1

theorem getElem?_set_self_of {α : Type _} {l : List α} {i : Nat} {a b : α}
    (h : l[i]? = some a) : (l.set i b)[i]? = some b :=
  List.getElem?_set_self (lt_of_getElem?_some h)

theorem getElem?_append_some {α : Type _} {l l2 : List α} {i : Nat} {a : α}
    (h : l[i]? = some a) : (l ++ l2)[i]? = some a := by
  rw [List.getElem?_append_left (lt_of_getElem?_some h)]; exact h

/-! ## State invariant

`OwnerShape` pins down a record's fields as a function of its owner's
program point; `CallerInv` ties every caller's program point to the record
it references; `Inv` packages these with in-flight-key uniqueness and token
conservation.  `Inv` holds initially and is preserved by every step. -/

/-- Record fields as a function of the owner's program point. -/
def OwnerShape (cap : Capability) (r : LoadResult) (rid : Nat) : PC → Prop
  | .acquiring j => j = rid ∧ r.done = false ∧ r.invocations = 0 ∧
      r.writes = 0 ∧ r.inMap = true
  | .invoking j => j = rid ∧ r.done = false ∧ r.invocations = 0 ∧
      r.writes = 0 ∧ r.inMap = true
  | .crashed j => j = rid ∧ cap r.key = none ∧ r.done = false ∧
      r.invocations = 1 ∧ r.writes = 0 ∧ r.inMap = true
  | .releasing j => j = rid ∧ cap r.key = some (r.value, r.ok) ∧
      r.done = false ∧ r.invocations = 1 ∧ r.writes = 1 ∧ r.inMap = true
  | .closing j => j = rid ∧ cap r.key = some (r.value, r.ok) ∧
      r.done = false ∧ r.invocations = 1 ∧ r.writes = 1 ∧ r.inMap = true
  | .deleting j => j = rid ∧ cap r.key = some (r.value, r.ok) ∧
      r.done = true ∧ r.invocations = 1 ∧ r.writes = 1 ∧ r.inMap = true
  | .returning j => j = rid ∧ cap r.key = some (r.value, r.ok) ∧
      r.done = true ∧ r.invocations = 1 ∧ r.writes = 1 ∧ r.inMap = false
  | .finished j v b => j = rid ∧ cap r.key = some (r.value, r.ok) ∧
      v = r.value ∧ b = r.ok ∧ r.done = true ∧ r.invocations = 1 ∧
      r.writes = 1 ∧ r.inMap = false
  | _ => False

/-- Program points that cannot belong to a record's owner. -/
def nonOwnerPC : PC → Prop
  | .ready => True
  | .waiting _ => True
  | _ => False

/-- The record index referenced by an owner-path program point. -/
def pcRid : PC → Option Nat
  | .acquiring j => some j
  | .invoking j => some j
  | .releasing j => some j
  | .closing j => some j
  | .deleting j => some j
  | .returning j => some j
  | .crashed j => some j
  | .finished j _ _ => some j
  | _ => none

theorem ownerShape_not_nonOwner {cap : Capability} {r : LoadResult} {rid : Nat}
    {pc : PC} (hsh : OwnerShape cap r rid pc) (hn : nonOwnerPC pc) : False := by
  cases pc <;> simp [OwnerShape, nonOwnerPC] at hsh hn

theorem ownerShape_rid {cap : Capability} {r : LoadResult} {rid : Nat} {pc : PC}
    (hsh : OwnerShape cap r rid pc) : pcRid pc = some rid := by
  cases pc <;> simp [OwnerShape] at hsh <;> simp [pcRid, hsh.1]

/-- Per-caller invariant: what each program point implies about `recs`. -/
def CallerInv (recs : List LoadResult) (i : Nat) (t : Caller) : Prop :=
  match t.pc with
  | .ready => True
  | .waiting rid => ∃ r, recs[rid]? = some r ∧ r.key = t.key ∧ r.owner ≠ i
  | .acquiring rid => ∃ r, recs[rid]? = some r ∧ r.owner = i
  | .invoking rid => ∃ r, recs[rid]? = some r ∧ r.owner = i
  | .releasing rid => ∃ r, recs[rid]? = some r ∧ r.owner = i
  | .closing rid => ∃ r, recs[rid]? = some r ∧ r.owner = i
  | .deleting rid => ∃ r, recs[rid]? = some r ∧ r.owner = i
  | .returning rid => ∃ r, recs[rid]? = some r ∧ r.owner = i
  | .crashed rid => ∃ r, recs[rid]? = some r ∧ r.owner = i
  | .finished rid v b => ∃ r, recs[rid]? = some r ∧ r.key = t.key ∧
      v = r.value ∧ b = r.ok ∧ r.done = true

/-- Per-record invariant: the owner exists, shares the key, and its program
point determines the record's fields. -/
def RecInv (cap : Capability) (threads : List Caller) (rid : Nat)
    (r : LoadResult) : Prop :=
  ∃ t, threads[r.owner]? = some t ∧ t.key = r.key ∧ OwnerShape cap r rid t.pc

/-- The global invariant of the loader. -/
structure Inv (cap : Capability) (s : Loader) : Prop where
  rec_inv : ∀ rid r, s.recs[rid]? = some r → RecInv cap s.threads rid r
  thr_inv : ∀ i t, s.threads[i]? = some t → CallerInv s.recs i t
  uniq : ∀ (rid1 rid2 : Nat) (r1 r2 : LoadResult),
      s.recs[rid1]? = some r1 → s.recs[rid2]? = some r2 →
      r1.inMap = true → r2.inMap = true → r1.key = r2.key → rid1 = rid2
  gate : s.proc.start + tokenCount s.threads + s.proc.shrinks = s.proc.maxProc

theorem tokenCount_cons (t : Caller) (ts : List Caller) :
    tokenCount (t :: ts) = (if holdsToken t.pc then 1 else 0) + tokenCount ts := by
  simp only [tokenCount, List.filter_cons]
  cases h : holdsToken t.pc <;> simp [h] <;> omega

theorem tokenCount_set (ts : List Caller) (i : Nat) (t t' : Caller)
    (h : ts[i]? = some t) :
    tokenCount (ts.set i t') + (if holdsToken t.pc then 1 else 0)
      = tokenCount ts + (if holdsToken t'.pc then 1 else 0) := by
  induction ts generalizing i with
  | nil => simp at h
  | cons a as ih =>
    cases i with
    | zero =>
      simp only [List.getElem?_cons_zero, Option.some.injEq] at h
      subst h
      simp only [List.set_cons_zero, tokenCount_cons]
      omega
    | succ n =>
      simp only [List.getElem?_cons_succ] at h
      simp only [List.set_cons_succ, tokenCount_cons]
      have := ih n h
      omega

theorem inv_init (cap : Capability) (maxProc : Nat) (keys : List Key) :
    Inv cap (initLoader maxProc keys) := by
  refine ⟨?_, ?_, ?_, ?_⟩
  · intro rid r hr; simp [initLoader] at hr
  · intro i t ht
    simp only [initLoader, List.getElem?_map] at ht
    rcases h : keys[i]? with _ | k
    · rw [h] at ht; simp at ht
    · rw [h] at ht
      injection ht with ht
      subst ht
      simp [CallerInv]
  · intro rid1 rid2 r1 r2 h1; simp [initLoader] at h1
  · simp only [initLoader, tokenCount]
    have : (List.map (fun k => ({ key := k, pc := .ready } : Caller)) keys).filter
        (fun t => holdsToken t.pc) = [] := by
      rw [List.filter_eq_nil_iff]
      intro a ha
      rcases List.mem_map.mp ha with ⟨k, _, rfl⟩
      simp [holdsToken]
    simp [this]

theorem owner_ne_of_nonOwner {cap : Capability} {s : Loader} (hInv : Inv cap s)
    {i : Nat} {t : Caller} (ht : s.threads[i]? = some t) (hn : nonOwnerPC t.pc)
    {rid : Nat} {r : LoadResult} (hr : s.recs[rid]? = some r) : r.owner ≠ i := by
  intro hown
  rcases hInv.rec_inv rid r hr with ⟨t', ht', _, hsh⟩
  rw [hown, ht] at ht'
  injection ht' with ht'
  subst ht'
  exact ownerShape_not_nonOwner hsh hn

theorem owner_pc_rid {cap : Capability} {s : Loader} (hInv : Inv cap s)
    {i : Nat} {t : Caller} (ht : s.threads[i]? = some t)
    {rid : Nat} {r : LoadResult} (hr : s.recs[rid]? = some r)
    (hown : r.owner = i) :
    t.key = r.key ∧ OwnerShape cap r rid t.pc ∧ pcRid t.pc = some rid := by
  rcases hInv.rec_inv rid r hr with ⟨t', ht', hk, hsh⟩
  rw [hown, ht] at ht'
  injection ht' with ht'
  subst ht'
  exact ⟨hk, hsh, ownerShape_rid hsh⟩

/-- `CallerInv` is stable under replacing a record by one that keeps the
key, the owner, and (once the record is completed) the result fields. -/
theorem CallerInv_set {recs : List LoadResult} (rid : Nat) (r r' : LoadResult)
    (hr : recs[rid]? = some r)
    (hkey : r'.key = r.key) (hown : r'.owner = r.owner)
    (hfin : r.done = true → r'.value = r.value ∧ r'.ok = r.ok ∧ r'.done = true)
    {i : Nat} {t : Caller} (h : CallerInv recs i t) :
    CallerInv (recs.set rid r') i t := by
  have hset : ∀ j, (recs.set rid r')[j]? = if rid = j then some r' else recs[j]? := by
    intro j
    rcases eq_or_ne rid j with rfl | hne
    · simp [getElem?_set_self_of hr]
    · simp [List.getElem?_set_ne hne, hne]
  cases hpc : t.pc with
  | ready => simp [CallerInv, hpc]
  | waiting j =>
    simp only [CallerInv, hpc] at h ⊢
    rcases h with ⟨rr, hrr, h1, h2⟩
    rcases eq_or_ne rid j with rfl | hne
    · rw [hr] at hrr; injection hrr with hrr; subst hrr
      exact ⟨r', by simp [hset], by rw [hkey]; exact h1, by rw [hown]; exact h2⟩
    · exact ⟨rr, by rw [List.getElem?_set_ne hne]; exact hrr, h1, h2⟩
  | finished j v b =>
    simp only [CallerInv, hpc] at h ⊢
    rcases h with ⟨rr, hrr, h1, h2, h3, h4⟩
    rcases eq_or_ne rid j with rfl | hne
    · rw [hr] at hrr; injection hrr with hrr; subst hrr
      rcases hfin h4 with ⟨e1, e2, e3⟩
      exact ⟨r', by simp [hset], by rw [hkey]; exact h1, by rw [e1]; exact h2,
        by rw [e2]; exact h3, e3⟩
    · exact ⟨rr, by rw [List.getElem?_set_ne hne]; exact hrr, h1, h2, h3, h4⟩
  | acquiring j =>
    simp only [CallerInv, hpc] at h ⊢
    rcases h with ⟨rr, hrr, h1⟩
    rcases eq_or_ne rid j with rfl | hne
    · rw [hr] at hrr; injection hrr with hrr; subst hrr
      exact ⟨r', by simp [hset], by rw [hown]; exact h1⟩
    · exact ⟨rr, by rw [List.getElem?_set_ne hne]; exact hrr, h1⟩
  | invoking j =>
    simp only [CallerInv, hpc] at h ⊢
    rcases h with ⟨rr, hrr, h1⟩
    rcases eq_or_ne rid j with rfl | hne
    · rw [hr] at hrr; injection hrr with hrr; subst hrr
      exact ⟨r', by simp [hset], by rw [hown]; exact h1⟩
    · exact ⟨rr, by rw [List.getElem?_set_ne hne]; exact hrr, h1⟩
  | releasing j =>
    simp only [CallerInv, hpc] at h ⊢
    rcases h with ⟨rr, hrr, h1⟩
    rcases eq_or_ne rid j with rfl | hne
    · rw [hr] at hrr; injection hrr with hrr; subst hrr
      exact ⟨r', by simp [hset], by rw [hown]; exact h1⟩
    · exact ⟨rr, by rw [List.getElem?_set_ne hne]; exact hrr, h1⟩
  | closing j =>
    simp only [CallerInv, hpc] at h ⊢
    rcases h with ⟨rr, hrr, h1⟩
    rcases eq_or_ne rid j with rfl | hne
    · rw [hr] at hrr; injection hrr with hrr; subst hrr
      exact ⟨r', by simp [hset], by rw [hown]; exact h1⟩
    · exact ⟨rr, by rw [List.getElem?_set_ne hne]; exact hrr, h1⟩
  | deleting j =>
    simp only [CallerInv, hpc] at h ⊢
    rcases h with ⟨rr, hrr, h1⟩
    rcases eq_or_ne rid j with rfl | hne
    · rw [hr] at hrr; injection hrr with hrr; subst hrr
      exact ⟨r', by simp [hset], by rw [hown]; exact h1⟩
    · exact ⟨rr, by rw [List.getElem?_set_ne hne]; exact hrr, h1⟩
  | returning j =>
    simp only [CallerInv, hpc] at h ⊢
    rcases h with ⟨rr, hrr, h1⟩
    rcases eq_or_ne rid j with rfl | hne
    · rw [hr] at hrr; injection hrr with hrr; subst hrr
      exact ⟨r', by simp [hset], by rw [hown]; exact h1⟩
    · exact ⟨rr, by rw [List.getElem?_set_ne hne]; exact hrr, h1⟩
  | crashed j =>
    simp only [CallerInv, hpc] at h ⊢
    rcases h with ⟨rr, hrr, h1⟩
    rcases eq_or_ne rid j with rfl | hne
    · rw [hr] at hrr; injection hrr with hrr; subst hrr
      exact ⟨r', by simp [hset], by rw [hown]; exact h1⟩
    · exact ⟨rr, by rw [List.getElem?_set_ne hne]; exact hrr, h1⟩

/-- `CallerInv` is stable under appending fresh records. -/
theorem CallerInv_append {recs : List LoadResult} {l2 : List LoadResult}
    {i : Nat} {t : Caller} (h : CallerInv recs i t) :
    CallerInv (recs ++ l2) i t := by
  cases hpc : t.pc with
  | ready => simp [CallerInv, hpc]
  | waiting j =>
    simp only [CallerInv, hpc] at h ⊢
    rcases h with ⟨rr, hrr, h1, h2⟩
    exact ⟨rr, getElem?_append_some hrr, h1, h2⟩
  | finished j v b =>
    simp only [CallerInv, hpc] at h ⊢
    rcases h with ⟨rr, hrr, h1, h2, h3, h4⟩
    exact ⟨rr, getElem?_append_some hrr, h1, h2, h3, h4⟩
  | acquiring j =>
    simp only [CallerInv, hpc] at h ⊢
    rcases h with ⟨rr, hrr, h1⟩
    exact ⟨rr, getElem?_append_some hrr, h1⟩
  | invoking j =>
    simp only [CallerInv, hpc] at h ⊢
    rcases h with ⟨rr, hrr, h1⟩
    exact ⟨rr, getElem?_append_some hrr, h1⟩
  | releasing j =>
    simp only [CallerInv, hpc] at h ⊢
    rcases h with ⟨rr, hrr, h1⟩
    exact ⟨rr, getElem?_append_some hrr, h1⟩
  | closing j =>
    simp only [CallerInv, hpc] at h ⊢
    rcases h with ⟨rr, hrr, h1⟩
    exact ⟨rr, getElem?_append_some hrr, h1⟩
  | deleting j =>
    simp only [CallerInv, hpc] at h ⊢
    rcases h with ⟨rr, hrr, h1⟩
    exact ⟨rr, getElem?_append_some hrr, h1⟩
  | returning j =>
    simp only [CallerInv, hpc] at h ⊢
    rcases h with ⟨rr, hrr, h1⟩
    exact ⟨rr, getElem?_append_some hrr, h1⟩
  | crashed j =>
    simp only [CallerInv, hpc] at h ⊢
    rcases h with ⟨rr, hrr, h1⟩
    exact ⟨rr, getElem?_append_some hrr, h1⟩

theorem getElem?_set_cases {α : Type _} {l : List α} {i : Nat} {a x y : α}
    (h : l[i]? = some a) {j : Nat} (hj : (l.set i x)[j]? = some y) :
    (j = i ∧ y = x) ∨ (j ≠ i ∧ l[j]? = some y) := by
  rcases eq_or_ne j i with rfl | hne
  · rw [getElem?_set_self_of h] at hj
    injection hj with hj
    exact Or.inl ⟨rfl, hj.symm⟩
  · rw [List.getElem?_set_ne (Ne.symm hne)] at hj
    exact Or.inr ⟨hne, hj⟩

/-- In-flight uniqueness is stable under replacing a record by one with the
same key whose `inMap` flag does not newly become true. -/
theorem uniq_preserve {recs : List LoadResult} (rid : Nat) (r r' : LoadResult)
    (hr : recs[rid]? = some r) (hkey : r'.key = r.key)
    (hmap : r'.inMap = true → r.inMap = true)
    (hu : ∀ (rid1 rid2 : Nat) (r1 r2 : LoadResult), recs[rid1]? = some r1 →
      recs[rid2]? = some r2 → r1.inMap = true → r2.inMap = true →
      r1.key = r2.key → rid1 = rid2) :
    ∀ (rid1 rid2 : Nat) (r1 r2 : LoadResult),
      (recs.set rid r')[rid1]? = some r1 → (recs.set rid r')[rid2]? = some r2 →
      r1.inMap = true → r2.inMap = true → r1.key = r2.key → rid1 = rid2 := by
  intro rid1 rid2 r1 r2 h1 h2 hm1 hm2 hk12
  have conv : ∀ (j : Nat) (rj : LoadResult), (recs.set rid r')[j]? = some rj →
      rj.inMap = true →
      ∃ rj0, recs[j]? = some rj0 ∧ rj0.inMap = true ∧ rj0.key = rj.key := by
    intro j rj hj hmj
    rcases getElem?_set_cases hr hj with ⟨rfl, rfl⟩ | ⟨_, hj'⟩
    · exact ⟨r, hr, hmap hmj, hkey.symm⟩
    · exact ⟨rj, hj', hmj, rfl⟩
  rcases conv rid1 r1 h1 hm1 with ⟨r10, hr10, hm10, hk10⟩
  rcases conv rid2 r2 h2 hm2 with ⟨r20, hr20, hm20, hk20⟩
  refine hu rid1 rid2 r10 r20 hr10 hr20 hm10 hm20 ?_
  rw [hk10, hk12, ← hk20]

/-- Case split for a lookup in `recs ++ [rNew]`. -/
theorem getElem?_append_cases {recs : List LoadResult} {rNew : LoadResult}
    {j : Nat} {rj : LoadResult} (hj : (recs ++ [rNew])[j]? = some rj) :
    (j < recs.length ∧ recs[j]? = some rj) ∨ (j = recs.length ∧ rj = rNew) := by
  rcases Nat.lt_trichotomy j recs.length with hlt | heq | hgt
  · rw [List.getElem?_append_left hlt] at hj
    exact Or.inl ⟨hlt, hj⟩
  · subst heq
    rw [List.getElem?_concat_length] at hj
    injection hj with hj
    exact Or.inr ⟨rfl, hj.symm⟩
  · exfalso
    have : (recs ++ [rNew]).length ≤ j := by simp; omega
    rw [List.getElem?_eq_none this] at hj
    cases hj

/-- The global invariant is preserved by every step. -/
theorem inv_step {cap : Capability} {s s' : Loader} (hInv : Inv cap s)
    (hstep : Step cap s s') : Inv cap s' := by
  cases hstep with
  | registerWaiter i rid t r ht hpc hr hin hk =>
    have hnon : nonOwnerPC t.pc := by rw [hpc]; trivial
    refine ⟨?_, ?_, ?_, ?_⟩
    · intro rid2 r2 hr2
      dsimp only at hr2 ⊢
      rcases hInv.rec_inv rid2 r2 hr2 with ⟨t', ht', hk', hsh⟩
      have hne : r2.owner ≠ i := owner_ne_of_nonOwner hInv ht hnon hr2
      refine ⟨t', ?_, hk', hsh⟩
      rw [List.getElem?_set_ne (Ne.symm hne)]
      exact ht'
    · intro j tj htj
      dsimp only at htj ⊢
      rcases getElem?_set_cases ht htj with ⟨rfl, rfl⟩ | ⟨hne, htj'⟩
      · exact ⟨r, hr, hk, owner_ne_of_nonOwner hInv ht hnon hr⟩
      · exact hInv.thr_inv j tj htj'
    · exact hInv.uniq
    · dsimp only
      have htc := tokenCount_set s.threads i t { t with pc := .waiting rid } ht
      rw [hpc] at htc
      simp [holdsToken] at htc
      have hg := hInv.gate
      omega
  | registerOwner i t ht hpc hnone =>
    have hnon : nonOwnerPC t.pc := by rw [hpc]; trivial
    refine ⟨?_, ?_, ?_, ?_⟩
    · intro rid2 r2 hr2
      dsimp only at hr2 ⊢
      rcases getElem?_append_cases hr2 with ⟨hlt, hr2'⟩ | ⟨heq, rfl⟩
      · rcases hInv.rec_inv rid2 r2 hr2' with ⟨t', ht', hk', hsh⟩
        have hne : r2.owner ≠ i := owner_ne_of_nonOwner hInv ht hnon hr2'
        refine ⟨t', ?_, hk', hsh⟩
        rw [List.getElem?_set_ne (Ne.symm hne)]
        exact ht'
      · refine ⟨{ t with pc := .acquiring s.recs.length }, ?_, rfl, ?_⟩
        · exact getElem?_set_self_of ht
        · exact ⟨heq.symm, rfl, rfl, rfl, rfl⟩
    · intro j tj htj
      dsimp only at htj ⊢
      rcases getElem?_set_cases ht htj with ⟨rfl, rfl⟩ | ⟨hne, htj'⟩
      · exact ⟨_, List.getElem?_concat_length _ _, rfl⟩
      · exact CallerInv_append (hInv.thr_inv j tj htj')
    · intro rid1 rid2 r1 r2 h1 h2 hm1 hm2 hk12
      dsimp only at h1 h2
      rcases getElem?_append_cases h1 with ⟨_, h1'⟩ | ⟨e1, rfl⟩
      · rcases getElem?_append_cases h2 with ⟨_, h2'⟩ | ⟨e2, rfl⟩
        · exact hInv.uniq rid1 rid2 r1 r2 h1' h2' hm1 hm2 hk12
        · exact absurd ⟨hm1, hk12⟩ (hnone r1 (List.getElem?_mem h1'))
      · rcases getElem?_append_cases h2 with ⟨_, h2'⟩ | ⟨e2, rfl⟩
        · exact absurd ⟨hm2, hk12.symm⟩ (hnone r2 (List.getElem?_mem h2'))
        · rw [e1, e2]
    · dsimp only
      have htc := tokenCount_set s.threads i t
        { t with pc := .acquiring s.recs.length } ht
      rw [hpc] at htc
      simp [holdsToken] at htc
      have hg := hInv.gate
      omega
  | waitDone i rid t r ht hpc hr hdone =>
    have hnon : nonOwnerPC t.pc := by rw [hpc]; trivial
    have hci := hInv.thr_inv i t ht
    simp only [CallerInv, hpc] at hci
    rcases hci with ⟨r0, hr0, hkey0, hown0⟩
    have hr0r : r0 = r := Option.some.inj (hr0.symm.trans hr)
    rw [hr0r] at hkey0 hown0
    refine ⟨?_, ?_, ?_, ?_⟩
    · intro rid2 r2 hr2
      dsimp only at hr2 ⊢
      rcases hInv.rec_inv rid2 r2 hr2 with ⟨t', ht', hk', hsh⟩
      have hne : r2.owner ≠ i := owner_ne_of_nonOwner hInv ht hnon hr2
      refine ⟨t', ?_, hk', hsh⟩
      rw [List.getElem?_set_ne (Ne.symm hne)]
      exact ht'
    · intro j tj htj
      dsimp only at htj ⊢
      rcases getElem?_set_cases ht htj with ⟨rfl, rfl⟩ | ⟨hne, htj'⟩
      · exact ⟨r, hr, hkey0, rfl, rfl, hdone⟩
      · exact hInv.thr_inv j tj htj'
    · exact hInv.uniq
    · dsimp only
      have htc := tokenCount_set s.threads i t
        { t with pc := .finished rid r.value r.ok } ht
      rw [hpc] at htc
      simp [holdsToken] at htc
      have hg := hInv.gate
      omega
  | acquire i rid t ht hpc htok =>
    have hci := hInv.thr_inv i t ht
    simp only [CallerInv, hpc] at hci
    rcases hci with ⟨r0, hr0, hown0⟩
    refine ⟨?_, ?_, ?_, ?_⟩
    · intro rid2 r2 hr2
      dsimp only at hr2 ⊢
      rcases eq_or_ne r2.owner i with hoi | hne
      · rcases owner_pc_rid hInv ht hr2 hoi with ⟨hk2, hsh2, hrid2⟩
        rw [hpc] at hrid2 hsh2
        simp only [pcRid] at hrid2
        injection hrid2 with hrid2
        rcases hsh2 with ⟨_, h1, h2, h3, h4⟩
        refine ⟨{ t with pc := .invoking rid }, ?_, hk2, hrid2, h1, h2, h3, h4⟩
        rw [hoi]
        exact getElem?_set_self_of ht
      · rcases hInv.rec_inv rid2 r2 hr2 with ⟨t', ht', hk', hsh⟩
        refine ⟨t', ?_, hk', hsh⟩
        rw [List.getElem?_set_ne (Ne.symm hne)]
        exact ht'
    · intro j tj htj
      dsimp only at htj ⊢
      rcases getElem?_set_cases ht htj with ⟨rfl, rfl⟩ | ⟨hne, htj'⟩
      · exact ⟨r0, hr0, hown0⟩
      · exact hInv.thr_inv j tj htj'
    · exact hInv.uniq
    · dsimp only
      have htc := tokenCount_set s.threads i t { t with pc := .invoking rid } ht
      rw [hpc] at htc
      simp [holdsToken] at htc
      have hg := hInv.gate
      omega
  | invokeOk i rid t r v ok ht hpc hr hcap =>
    have hci := hInv.thr_inv i t ht
    simp only [CallerInv, hpc] at hci
    rcases hci with ⟨r0, hr0, hown0⟩
    have hr0r : r0 = r := Option.some.inj (hr0.symm.trans hr)
    rw [hr0r] at hown0
    rcases owner_pc_rid hInv ht hr hown0 with ⟨hkey, hsh, _⟩
    rw [hpc] at hsh
    rcases hsh with ⟨_, hdoneF, hinv0, hwr0, hmapT⟩
    refine ⟨?_, ?_, ?_, ?_⟩
    · intro rid2 r2 hr2
      dsimp only at hr2 ⊢
      rcases getElem?_set_cases hr hr2 with ⟨rfl, rfl⟩ | ⟨hne2, hr2'⟩
      · refine ⟨{ t with pc := .releasing rid2 }, ?_, hkey, rfl, ?_, hdoneF, ?_, ?_, hmapT⟩
        · have ho : ({ r with value := v, ok := ok, invocations := r.invocations + 1, writes := r.writes + 1 } : LoadResult).owner = i := hown0
          rw [ho]
          exact getElem?_set_self_of ht
        · show cap r.key = some (v, ok)
          rw [← hkey]
          exact hcap
        · show r.invocations + 1 = 1
          omega
        · show r.writes + 1 = 1
          omega
      · rcases hInv.rec_inv rid2 r2 hr2' with ⟨t', ht', hk', hsh'⟩
        have hne : r2.owner ≠ i := by
          intro hoi
          rcases owner_pc_rid hInv ht hr2' hoi with ⟨_, _, hrid2⟩
          rw [hpc] at hrid2
          simp only [pcRid] at hrid2
          injection hrid2 with hrid2
          exact hne2 hrid2.symm
        refine ⟨t', ?_, hk', hsh'⟩
        rw [List.getElem?_set_ne (Ne.symm hne)]
        exact ht'
    · intro j tj htj
      dsimp only at htj ⊢
      rcases getElem?_set_cases ht htj with ⟨rfl, rfl⟩ | ⟨hnej, htj'⟩
      · exact ⟨_, getElem?_set_self_of hr, hown0⟩
      · refine CallerInv_set rid r { r with value := v, ok := ok, invocations := r.invocations + 1, writes := r.writes + 1 } hr rfl rfl ?_ (hInv.thr_inv j tj htj')
        intro hd
        rw [hdoneF] at hd
        exact absurd hd Bool.false_ne_true
    · intro rid1 rid2 r1 r2 h1 h2
      dsimp only at h1 h2
      exact uniq_preserve rid r { r with value := v, ok := ok, invocations := r.invocations + 1, writes := r.writes + 1 } hr rfl (fun h => h) hInv.uniq rid1 rid2 r1 r2 h1 h2
    · dsimp only
      have htc := tokenCount_set s.threads i t { t with pc := .releasing rid } ht
      rw [hpc] at htc
      simp [holdsToken] at htc
      have hg := hInv.gate
      omega
  | invokePanic i rid t r ht hpc hr hcap =>
    have hci := hInv.thr_inv i t ht
    simp only [CallerInv, hpc] at hci
    rcases hci with ⟨r0, hr0, hown0⟩
    have hr0r : r0 = r := Option.some.inj (hr0.symm.trans hr)
    rw [hr0r] at hown0
    rcases owner_pc_rid hInv ht hr hown0 with ⟨hkey, hsh, _⟩
    rw [hpc] at hsh
    rcases hsh with ⟨_, hdoneF, hinv0, hwr0, hmapT⟩
    refine ⟨?_, ?_, ?_, ?_⟩
    · intro rid2 r2 hr2
      dsimp only at hr2 ⊢
      rcases getElem?_set_cases hr hr2 with ⟨rfl, rfl⟩ | ⟨hne2, hr2'⟩
      · refine ⟨{ t with pc := .crashed rid2 }, ?_, hkey, rfl, ?_, hdoneF, ?_, hwr0, hmapT⟩
        · have ho : ({ r with invocations := r.invocations + 1 } : LoadResult).owner = i := hown0
          rw [ho]
          exact getElem?_set_self_of ht
        · show cap r.key = none
          rw [← hkey]
          exact hcap
        · show r.invocations + 1 = 1
          omega
      · rcases hInv.rec_inv rid2 r2 hr2' with ⟨t', ht', hk', hsh'⟩
        have hne : r2.owner ≠ i := by
          intro hoi
          rcases owner_pc_rid hInv ht hr2' hoi with ⟨_, _, hrid2⟩
          rw [hpc] at hrid2
          simp only [pcRid] at hrid2
          injection hrid2 with hrid2
          exact hne2 hrid2.symm
        refine ⟨t', ?_, hk', hsh'⟩
        rw [List.getElem?_set_ne (Ne.symm hne)]
        exact ht'
    · intro j tj htj
      dsimp only at htj ⊢
      rcases getElem?_set_cases ht htj with ⟨rfl, rfl⟩ | ⟨hnej, htj'⟩
      · exact ⟨_, getElem?_set_self_of hr, hown0⟩
      · refine CallerInv_set rid r { r with invocations := r.invocations + 1 } hr rfl rfl ?_ (hInv.thr_inv j tj htj')
        intro hd
        rw [hdoneF] at hd
        exact absurd hd Bool.false_ne_true
    · intro rid1 rid2 r1 r2 h1 h2
      dsimp only at h1 h2
      exact uniq_preserve rid r { r with invocations := r.invocations + 1 } hr rfl (fun h => h) hInv.uniq rid1 rid2 r1 r2 h1 h2
    · dsimp only
      have htc := tokenCount_set s.threads i t { t with pc := .crashed rid } ht
      rw [hpc] at htc
      simp [holdsToken] at htc
      have hg := hInv.gate
      omega
  | release i rid t ht hpc =>
    have hci := hInv.thr_inv i t ht
    simp only [CallerInv, hpc] at hci
    rcases hci with ⟨r0, hr0, hown0⟩
    refine ⟨?_, ?_, ?_, ?_⟩
    · intro rid2 r2 hr2
      dsimp only at hr2 ⊢
      rcases eq_or_ne r2.owner i with hoi | hne
      · rcases owner_pc_rid hInv ht hr2 hoi with ⟨hk2, hsh2, hrid2⟩
        rw [hpc] at hrid2 hsh2
        simp only [pcRid] at hrid2
        injection hrid2 with hrid2
        rcases hsh2 with ⟨_, h1, h2, h3, h4, h5⟩
        refine ⟨{ t with pc := .closing rid }, ?_, hk2, hrid2, h1, h2, h3, h4, h5⟩
        rw [hoi]
        exact getElem?_set_self_of ht
      · rcases hInv.rec_inv rid2 r2 hr2 with ⟨t', ht', hk', hsh⟩
        refine ⟨t', ?_, hk', hsh⟩
        rw [List.getElem?_set_ne (Ne.symm hne)]
        exact ht'
    · intro j tj htj
      dsimp only at htj ⊢
      rcases getElem?_set_cases ht htj with ⟨rfl, rfl⟩ | ⟨hne, htj'⟩
      · exact ⟨r0, hr0, hown0⟩
      · exact hInv.thr_inv j tj htj'
    · exact hInv.uniq
    · dsimp only
      have htc := tokenCount_set s.threads i t { t with pc := .closing rid } ht
      rw [hpc] at htc
      simp [holdsToken] at htc
      have hg := hInv.gate
      omega
  | closeDone i rid t r ht hpc hr =>
    have hci := hInv.thr_inv i t ht
    simp only [CallerInv, hpc] at hci
    rcases hci with ⟨r0, hr0, hown0⟩
    have hr0r : r0 = r := Option.some.inj (hr0.symm.trans hr)
    rw [hr0r] at hown0
    rcases owner_pc_rid hInv ht hr hown0 with ⟨hkey, hsh, _⟩
    rw [hpc] at hsh
    rcases hsh with ⟨_, hcapEq, hdoneF, hinv1, hwr1, hmapT⟩
    refine ⟨?_, ?_, ?_, ?_⟩
    · intro rid2 r2 hr2
      dsimp only at hr2 ⊢
      rcases getElem?_set_cases hr hr2 with ⟨rfl, rfl⟩ | ⟨hne2, hr2'⟩
      · refine ⟨{ t with pc := .deleting rid2 }, ?_, hkey, rfl, hcapEq, rfl,
          hinv1, hwr1, hmapT⟩
        have ho : ({ r with done := true } : LoadResult).owner = i := hown0
        rw [ho]
        exact getElem?_set_self_of ht
      · rcases hInv.rec_inv rid2 r2 hr2' with ⟨t', ht', hk', hsh'⟩
        have hne : r2.owner ≠ i := by
          intro hoi
          rcases owner_pc_rid hInv ht hr2' hoi with ⟨_, _, hrid2⟩
          rw [hpc] at hrid2
          simp only [pcRid] at hrid2
          injection hrid2 with hrid2
          exact hne2 hrid2.symm
        refine ⟨t', ?_, hk', hsh'⟩
        rw [List.getElem?_set_ne (Ne.symm hne)]
        exact ht'
    · intro j tj htj
      dsimp only at htj ⊢
      rcases getElem?_set_cases ht htj with ⟨rfl, rfl⟩ | ⟨hnej, htj'⟩
      · exact ⟨_, getElem?_set_self_of hr, hown0⟩
      · refine CallerInv_set rid r { r with done := true } hr rfl rfl ?_ (hInv.thr_inv j tj htj')
        intro hd
        rw [hdoneF] at hd
        exact absurd hd Bool.false_ne_true
    · intro rid1 rid2 r1 r2 h1 h2
      dsimp only at h1 h2
      exact uniq_preserve rid r { r with done := true } hr rfl (fun h => h) hInv.uniq rid1 rid2 r1 r2 h1 h2
    · dsimp only
      have htc := tokenCount_set s.threads i t { t with pc := .deleting rid } ht
      rw [hpc] at htc
      simp [holdsToken] at htc
      have hg := hInv.gate
      omega
  | deleteRec i rid t r ht hpc hr =>
    have hci := hInv.thr_inv i t ht
    simp only [CallerInv, hpc] at hci
    rcases hci with ⟨r0, hr0, hown0⟩
    have hr0r : r0 = r := Option.some.inj (hr0.symm.trans hr)
    rw [hr0r] at hown0
    rcases owner_pc_rid hInv ht hr hown0 with ⟨hkey, hsh, _⟩
    rw [hpc] at hsh
    rcases hsh with ⟨_, hcapEq, hdoneT, hinv1, hwr1, hmapT⟩
    refine ⟨?_, ?_, ?_, ?_⟩
    · intro rid2 r2 hr2
      dsimp only at hr2 ⊢
      rcases getElem?_set_cases hr hr2 with ⟨rfl, rfl⟩ | ⟨hne2, hr2'⟩
      · refine ⟨{ t with pc := .returning rid2 }, ?_, hkey, rfl, hcapEq, hdoneT,
          hinv1, hwr1, rfl⟩
        have ho : ({ r with inMap := false } : LoadResult).owner = i := hown0
        rw [ho]
        exact getElem?_set_self_of ht
      · rcases hInv.rec_inv rid2 r2 hr2' with ⟨t', ht', hk', hsh'⟩
        have hne : r2.owner ≠ i := by
          intro hoi
          rcases owner_pc_rid hInv ht hr2' hoi with ⟨_, _, hrid2⟩
          rw [hpc] at hrid2
          simp only [pcRid] at hrid2
          injection hrid2 with hrid2
          exact hne2 hrid2.symm
        refine ⟨t', ?_, hk', hsh'⟩
        rw [List.getElem?_set_ne (Ne.symm hne)]
        exact ht'
    · intro j tj htj
      dsimp only at htj ⊢
      rcases getElem?_set_cases ht htj with ⟨rfl, rfl⟩ | ⟨hnej, htj'⟩
      · exact ⟨_, getElem?_set_self_of hr, hown0⟩
      · refine CallerInv_set rid r { r with inMap := false } hr rfl rfl ?_ (hInv.thr_inv j tj htj')
        intro hd
        exact ⟨rfl, rfl, hdoneT⟩
    · intro rid1 rid2 r1 r2 h1 h2
      dsimp only at h1 h2
      refine uniq_preserve rid r { r with inMap := false } hr rfl ?_ hInv.uniq rid1 rid2 r1 r2 h1 h2
      intro h
      exact absurd h Bool.false_ne_true
    · dsimp only
      have htc := tokenCount_set s.threads i t { t with pc := .returning rid } ht
      rw [hpc] at htc
      simp [holdsToken] at htc
      have hg := hInv.gate
      omega
  | ret i rid t r ht hpc hr =>
    have hci := hInv.thr_inv i t ht
    simp only [CallerInv, hpc] at hci
    rcases hci with ⟨r0, hr0, hown0⟩
    have hr0r : r0 = r := Option.some.inj (hr0.symm.trans hr)
    rw [hr0r] at hown0
    rcases owner_pc_rid hInv ht hr hown0 with ⟨hkey, hsh, _⟩
    rw [hpc] at hsh
    rcases hsh with ⟨_, hcapEq, hdoneT, hinv1, hwr1, hmapF⟩
    refine ⟨?_, ?_, ?_, ?_⟩
    · intro rid2 r2 hr2
      dsimp only at hr2 ⊢
      rcases eq_or_ne r2.owner i with hoi | hne
      · rcases owner_pc_rid hInv ht hr2 hoi with ⟨hk2, hsh2, hrid2⟩
        rw [hpc] at hrid2
        simp only [pcRid] at hrid2
        injection hrid2 with hrid2
        have hr2r : r2 = r := by
          rw [← hrid2] at hr2
          exact Option.some.inj (hr2.symm.trans hr)
        subst hr2r
        refine ⟨{ t with pc := .finished rid r2.value r2.ok }, ?_, hk2, hrid2,
          hcapEq, rfl, rfl, hdoneT, hinv1, hwr1, hmapF⟩
        rw [hoi]
        exact getElem?_set_self_of ht
      · rcases hInv.rec_inv rid2 r2 hr2 with ⟨t', ht', hk', hsh'⟩
        refine ⟨t', ?_, hk', hsh'⟩
        rw [List.getElem?_set_ne (Ne.symm hne)]
        exact ht'
    · intro j tj htj
      dsimp only at htj ⊢
      rcases getElem?_set_cases ht htj with ⟨rfl, rfl⟩ | ⟨hne, htj'⟩
      · exact ⟨r, hr, hkey.symm, rfl, rfl, hdoneT⟩
      · exact hInv.thr_inv j tj htj'
    · exact hInv.uniq
    · dsimp only
      have htc := tokenCount_set s.threads i t
        { t with pc := .finished rid r.value r.ok } ht
      rw [hpc] at htc
      simp [holdsToken] at htc
      have hg := hInv.gate
      omega
  | shrinkSignal hq =>
    refine ⟨hInv.rec_inv, hInv.thr_inv, hInv.uniq, ?_⟩
    dsimp only
    exact hInv.gate
  | shrinkConsume hq htok =>
    refine ⟨hInv.rec_inv, hInv.thr_inv, hInv.uniq, ?_⟩
    dsimp only
    have hg := hInv.gate
    omega

/-- The global invariant holds in every state reachable from an initial
state. -/
theorem reach_inv {cap : Capability} {maxProc : Nat} {keys : List Key}
    {s : Loader} (h : Reach cap (initLoader maxProc keys) s) : Inv cap s := by
  induction h with
  | refl => exact inv_init cap maxProc keys
  | tail _ hstep ih => exact inv_step ih hstep

/-! ## Quantities preserved by every step -/

theorem step_maxProc_eq {cap : Capability} {s s' : Loader} (h : Step cap s s') :
    s'.proc.maxProc = s.proc.maxProc := by
  cases h <;> rfl

theorem reach_maxProc_eq {cap : Capability} {s s' : Loader} (h : Reach cap s s') :
    s'.proc.maxProc = s.proc.maxProc := by
  induction h with
  | refl => rfl
  | tail _ hstep ih => rw [step_maxProc_eq hstep, ih]

theorem step_shrinks_mono {cap : Capability} {s s' : Loader} (h : Step cap s s') :
    s.proc.shrinks ≤ s'.proc.shrinks := by
  cases h <;> simp

theorem reach_shrinks_mono {cap : Capability} {s s' : Loader} (h : Reach cap s s') :
    s.proc.shrinks ≤ s'.proc.shrinks := by
  induction h with
  | refl => exact Nat.le_refl _
  | tail _ hstep ih => exact Nat.le_trans ih (step_shrinks_mono hstep)

theorem map_key_set {ts : List Caller} {i : Nat} {t : Caller} (x : Caller)
    (ht : ts[i]? = some t) (hk : x.key = t.key) (j : Nat) :
    ((ts.set i x)[j]?).map Caller.key = (ts[j]?).map Caller.key := by
  rcases eq_or_ne i j with rfl | hne
  · rw [getElem?_set_self_of ht, ht]
    simp [hk]
  · rw [List.getElem?_set_ne hne]

/-- No step changes any caller's key (only its program point). -/
theorem step_key_stable {cap : Capability} {s s' : Loader} (h : Step cap s s')
    (j : Nat) :
    (s'.threads[j]?).map Caller.key = (s.threads[j]?).map Caller.key := by
  cases h with
  | registerWaiter i rid t r ht hpc hr hin hk =>
    exact map_key_set { t with pc := .waiting rid } ht rfl j
  | registerOwner i t ht hpc hnone =>
    exact map_key_set { t with pc := .acquiring s.recs.length } ht rfl j
  | waitDone i rid t r ht hpc hr hdone =>
    exact map_key_set { t with pc := .finished rid r.value r.ok } ht rfl j
  | acquire i rid t ht hpc htok =>
    exact map_key_set { t with pc := .invoking rid } ht rfl j
  | invokeOk i rid t r v ok ht hpc hr hcap =>
    exact map_key_set { t with pc := .releasing rid } ht rfl j
  | invokePanic i rid t r ht hpc hr hcap =>
    exact map_key_set { t with pc := .crashed rid } ht rfl j
  | release i rid t ht hpc =>
    exact map_key_set { t with pc := .closing rid } ht rfl j
  | closeDone i rid t r ht hpc hr =>
    exact map_key_set { t with pc := .deleting rid } ht rfl j
  | deleteRec i rid t r ht hpc hr =>
    exact map_key_set { t with pc := .returning rid } ht rfl j
  | ret i rid t r ht hpc hr =>
    exact map_key_set { t with pc := .finished rid r.value r.ok } ht rfl j
  | shrinkSignal hq => rfl
  | shrinkConsume hq htok => rfl

theorem reach_key_stable {cap : Capability} {s s' : Loader} (h : Reach cap s s')
    (j : Nat) :
    (s'.threads[j]?).map Caller.key = (s.threads[j]?).map Caller.key := by
  induction h with
  | refl => rfl
  | tail _ hstep ih => rw [step_key_stable hstep, ih]

/-! ## Execution construction helpers -/

theorem set_append_length {α : Type _} (A B : List α) (b w : α) :
    (A ++ b :: B).set A.length w = A ++ w :: B := by
  rw [List.set_append_right _ _ (Nat.le_refl _)]
  simp

/-- Run an identical, record-enabled transition on each of `p` identical
callers in turn (used for the registration and wake-up phases). -/
theorem replicateSteps (cap : Capability) (recs0 : List LoadResult)
    (proc0 : Proc) (k : Key) (pcA pcB : PC)
    (hstep : ∀ (ts : List Caller) (i : Nat), ts[i]? = some ⟨k, pcA⟩ →
      Step cap ⟨recs0, proc0, ts⟩ ⟨recs0, proc0, ts.set i ⟨k, pcB⟩⟩) :
    ∀ (p : Nat) (A : List Caller),
      Reach cap ⟨recs0, proc0, A ++ List.replicate p ⟨k, pcA⟩⟩
        ⟨recs0, proc0, A ++ List.replicate p ⟨k, pcB⟩⟩ := by
  intro p
  induction p with
  | zero => intro A; exact Relation.ReflTransGen.refl
  | succ q ih =>
    intro A
    have hl : (A ++ List.replicate (q + 1) (⟨k, pcA⟩ : Caller))[A.length]?
        = some ⟨k, pcA⟩ := by
      rw [List.getElem?_append_right (Nat.le_refl _)]
      simp
    have h1 := hstep (A ++ List.replicate (q + 1) ⟨k, pcA⟩) A.length hl
    rw [List.replicate_succ, set_append_length] at h1
    have h2 := ih (A ++ [⟨k, pcB⟩])
    simp only [List.append_assoc, List.singleton_append] at h2
    refine Relation.ReflTransGen.head h1 ?_
    rw [List.replicate_succ]
    exact h2

/-- The state after `N` concurrent `Load(k)` calls have fully collapsed onto
one episode: one completed, removed record loaded exactly once, all callers
returned `(v, b)`, all gate tokens back in the pool. -/
def collapsedFinal (maxProc N : Nat) (k : Key) (v : Value) (b : Bool) : Loader :=
  { recs := [{ key := k, done := true, value := v, ok := b, owner := 0,
               invocations := 1, writes := 1, inMap := false }]
    proc := { maxProc := maxProc, start := maxProc, shrinkStage := false, shrinks := 0 }
    threads := List.replicate N { key := k, pc := .finished 0 v b } }

theorem initLoader_replicate (maxProc N : Nat) (k : Key) :
    initLoader maxProc (List.replicate N k)
      = ⟨[], ⟨maxProc, maxProc, false, 0⟩, List.replicate N ⟨k, .ready⟩⟩ := by
  simp [initLoader]

/-- The canonical collapsed schedule: all `p + 1` callers register before the
owner completes; the capability runs exactly once and everyone returns the
same pair. -/
theorem collapse_exec (cap : Capability) (maxProc p : Nat) (k : Key) (v : Value)
    (b : Bool) (hm : 0 < maxProc) (hcap : cap k = some (v, b)) :
    Reach cap (initLoader maxProc (List.replicate (p + 1) k))
      (collapsedFinal maxProc (p + 1) k v b) := by
  rw [initLoader_replicate]
  have st1 : Step cap
      ⟨[], ⟨maxProc, maxProc, false, 0⟩, List.replicate (p + 1) ⟨k, .ready⟩⟩
      ⟨[⟨k, false, [], false, 0, 0, 0, true⟩], ⟨maxProc, maxProc, false, 0⟩,
        ⟨k, .acquiring 0⟩ :: List.replicate p ⟨k, .ready⟩⟩ := by
    have h := @Step.registerOwner cap
      ⟨[], ⟨maxProc, maxProc, false, 0⟩, List.replicate (p + 1) ⟨k, .ready⟩⟩
      0 ⟨k, .ready⟩ (by simp) rfl (by simp)
    simpa using h
  have st2 := replicateSteps cap [⟨k, false, [], false, 0, 0, 0, true⟩]
      ⟨maxProc, maxProc, false, 0⟩ k .ready (.waiting 0)
      (fun ts i hi => Step.registerWaiter _ i 0 ⟨k, .ready⟩
        ⟨k, false, [], false, 0, 0, 0, true⟩ hi rfl rfl rfl rfl)
      p [⟨k, .acquiring 0⟩]
  have st3 : Step cap
      ⟨[⟨k, false, [], false, 0, 0, 0, true⟩], ⟨maxProc, maxProc, false, 0⟩,
        ⟨k, .acquiring 0⟩ :: List.replicate p ⟨k, .waiting 0⟩⟩
      ⟨[⟨k, false, [], false, 0, 0, 0, true⟩], ⟨maxProc, maxProc - 1, false, 0⟩,
        ⟨k, .invoking 0⟩ :: List.replicate p ⟨k, .waiting 0⟩⟩ :=
    by refine Step.acquire _ 0 0 ⟨k, .acquiring 0⟩ ?_ rfl hm; simp
  have st4 : Step cap
      ⟨[⟨k, false, [], false, 0, 0, 0, true⟩], ⟨maxProc, maxProc - 1, false, 0⟩,
        ⟨k, .invoking 0⟩ :: List.replicate p ⟨k, .waiting 0⟩⟩
      ⟨[⟨k, false, v, b, 0, 1, 1, true⟩], ⟨maxProc, maxProc - 1, false, 0⟩,
        ⟨k, .releasing 0⟩ :: List.replicate p ⟨k, .waiting 0⟩⟩ :=
    by refine Step.invokeOk _ 0 0 ⟨k, .invoking 0⟩
         ⟨k, false, [], false, 0, 0, 0, true⟩ v b ?_ rfl ?_ hcap <;> simp
  have st5 : Step cap
      ⟨[⟨k, false, v, b, 0, 1, 1, true⟩], ⟨maxProc, maxProc - 1, false, 0⟩,
        ⟨k, .releasing 0⟩ :: List.replicate p ⟨k, .waiting 0⟩⟩
      ⟨[⟨k, false, v, b, 0, 1, 1, true⟩], ⟨maxProc, maxProc - 1 + 1, false, 0⟩,
        ⟨k, .closing 0⟩ :: List.replicate p ⟨k, .waiting 0⟩⟩ :=
    by refine Step.release _ 0 0 ⟨k, .releasing 0⟩ ?_ rfl; simp
  have st6 : Step cap
      ⟨[⟨k, false, v, b, 0, 1, 1, true⟩], ⟨maxProc, maxProc - 1 + 1, false, 0⟩,
        ⟨k, .closing 0⟩ :: List.replicate p ⟨k, .waiting 0⟩⟩
      ⟨[⟨k, true, v, b, 0, 1, 1, true⟩], ⟨maxProc, maxProc - 1 + 1, false, 0⟩,
        ⟨k, .deleting 0⟩ :: List.replicate p ⟨k, .waiting 0⟩⟩ :=
    by refine Step.closeDone _ 0 0 ⟨k, .closing 0⟩
         ⟨k, false, v, b, 0, 1, 1, true⟩ ?_ rfl ?_ <;> simp
  have st7 := replicateSteps cap [⟨k, true, v, b, 0, 1, 1, true⟩]
      ⟨maxProc, maxProc - 1 + 1, false, 0⟩ k (.waiting 0) (.finished 0 v b)
      (fun ts i hi => Step.waitDone _ i 0 ⟨k, .waiting 0⟩
        ⟨k, true, v, b, 0, 1, 1, true⟩ hi rfl rfl rfl)
      p [⟨k, .deleting 0⟩]
  have st8 : Step cap
      ⟨[⟨k, true, v, b, 0, 1, 1, true⟩], ⟨maxProc, maxProc - 1 + 1, false, 0⟩,
        ⟨k, .deleting 0⟩ :: List.replicate p ⟨k, .finished 0 v b⟩⟩
      ⟨[⟨k, true, v, b, 0, 1, 1, false⟩], ⟨maxProc, maxProc - 1 + 1, false, 0⟩,
        ⟨k, .returning 0⟩ :: List.replicate p ⟨k, .finished 0 v b⟩⟩ :=
    by refine Step.deleteRec _ 0 0 ⟨k, .deleting 0⟩
         ⟨k, true, v, b, 0, 1, 1, true⟩ ?_ rfl ?_ <;> simp
  have st9 : Step cap
      ⟨[⟨k, true, v, b, 0, 1, 1, false⟩], ⟨maxProc, maxProc - 1 + 1, false, 0⟩,
        ⟨k, .returning 0⟩ :: List.replicate p ⟨k, .finished 0 v b⟩⟩
      ⟨[⟨k, true, v, b, 0, 1, 1, false⟩], ⟨maxProc, maxProc - 1 + 1, false, 0⟩,
        ⟨k, .finished 0 v b⟩ :: List.replicate p ⟨k, .finished 0 v b⟩⟩ :=
    by refine Step.ret _ 0 0 ⟨k, .returning 0⟩
         ⟨k, true, v, b, 0, 1, 1, false⟩ ?_ rfl ?_ <;> simp
  have harith : maxProc - 1 + 1 = maxProc := Nat.succ_pred_eq_of_pos hm
  have hfin : (⟨[⟨k, true, v, b, 0, 1, 1, false⟩],
      ⟨maxProc, maxProc - 1 + 1, false, 0⟩,
      ⟨k, .finished 0 v b⟩ :: List.replicate p ⟨k, .finished 0 v b⟩⟩ : Loader)
      = collapsedFinal maxProc (p + 1) k v b := by
    simp [collapsedFinal, harith, List.replicate_succ]
  rw [← hfin]
  exact Relation.ReflTransGen.head st1 (Relation.ReflTransGen.trans st2
    (Relation.ReflTransGen.head st3 (Relation.ReflTransGen.head st4
      (Relation.ReflTransGen.head st5 (Relation.ReflTransGen.head st6
        (Relation.ReflTransGen.trans st7 (Relation.ReflTransGen.head st8
          (Relation.ReflTransGen.single st9))))))))

/-- A complete, uninterrupted owner episode: a ready caller for `k` (no
record for `k` in flight, a token available) registers, acquires, loads,
releases, signals, deletes and returns, leaving the gate as it found it and
the completed record removed from the map. -/
theorem ownerEpisode (cap : Capability) (s : Loader) (i : Nat) (k : Key)
    (v : Value) (b : Bool)
    (ht : s.threads[i]? = some ⟨k, .ready⟩) (hcap : cap k = some (v, b))
    (hnone : ∀ r ∈ s.recs, ¬(r.inMap = true ∧ r.key = k))
    (htok : 0 < s.proc.start) :
    Reach cap s
      { recs := s.recs ++ [⟨k, true, v, b, i, 1, 1, false⟩]
        proc := s.proc
        threads := s.threads.set i ⟨k, .finished s.recs.length v b⟩ } := by
  have hset : ∀ x : Caller, (s.threads.set i x)[i]? = some x :=
    fun x => getElem?_set_self_of ht
  have hsetset : ∀ x y : Caller,
      (s.threads.set i x).set i y = s.threads.set i y :=
    fun x y => List.set_set x y s.threads i
  have hrecset : ∀ R R' : LoadResult,
      (s.recs ++ [R]).set s.recs.length R' = s.recs ++ [R'] :=
    fun R R' => set_append_length s.recs [] R R'
  have st1 : Step cap s
      ⟨s.recs ++ [newRec k i], s.proc,
        s.threads.set i ⟨k, .acquiring s.recs.length⟩⟩ := by
    exact Step.registerOwner s i ⟨k, .ready⟩ ht rfl hnone
  have st2 : Step cap
      ⟨s.recs ++ [newRec k i], s.proc,
        s.threads.set i ⟨k, .acquiring s.recs.length⟩⟩
      ⟨s.recs ++ [newRec k i], { s.proc with start := s.proc.start - 1 },
        s.threads.set i ⟨k, .invoking s.recs.length⟩⟩ := by
    have h := @Step.acquire cap
      ⟨s.recs ++ [newRec k i], s.proc,
        s.threads.set i ⟨k, .acquiring s.recs.length⟩⟩
      i s.recs.length ⟨k, .acquiring s.recs.length⟩ (hset _) rfl htok
    rw [hsetset] at h
    exact h
  have st3 : Step cap
      ⟨s.recs ++ [newRec k i], { s.proc with start := s.proc.start - 1 },
        s.threads.set i ⟨k, .invoking s.recs.length⟩⟩
      ⟨s.recs ++ [⟨k, false, v, b, i, 1, 1, true⟩],
        { s.proc with start := s.proc.start - 1 },
        s.threads.set i ⟨k, .releasing s.recs.length⟩⟩ := by
    have h := @Step.invokeOk cap
      ⟨s.recs ++ [newRec k i], { s.proc with start := s.proc.start - 1 },
        s.threads.set i ⟨k, .invoking s.recs.length⟩⟩
      i s.recs.length ⟨k, .invoking s.recs.length⟩ (newRec k i) v b
      (hset _) rfl (List.getElem?_concat_length _ _) hcap
    rw [hsetset, hrecset] at h
    exact h
  have st4 : Step cap
      ⟨s.recs ++ [⟨k, false, v, b, i, 1, 1, true⟩],
        { s.proc with start := s.proc.start - 1 },
        s.threads.set i ⟨k, .releasing s.recs.length⟩⟩
      ⟨s.recs ++ [⟨k, false, v, b, i, 1, 1, true⟩],
        { s.proc with start := s.proc.start - 1 + 1 },
        s.threads.set i ⟨k, .closing s.recs.length⟩⟩ := by
    have h := @Step.release cap
      ⟨s.recs ++ [⟨k, false, v, b, i, 1, 1, true⟩],
        { s.proc with start := s.proc.start - 1 },
        s.threads.set i ⟨k, .releasing s.recs.length⟩⟩
      i s.recs.length ⟨k, .releasing s.recs.length⟩ (hset _) rfl
    rw [hsetset] at h
    exact h
  have st5 : Step cap
      ⟨s.recs ++ [⟨k, false, v, b, i, 1, 1, true⟩],
        { s.proc with start := s.proc.start - 1 + 1 },
        s.threads.set i ⟨k, .closing s.recs.length⟩⟩
      ⟨s.recs ++ [⟨k, true, v, b, i, 1, 1, true⟩],
        { s.proc with start := s.proc.start - 1 + 1 },
        s.threads.set i ⟨k, .deleting s.recs.length⟩⟩ := by
    have h := @Step.closeDone cap
      ⟨s.recs ++ [⟨k, false, v, b, i, 1, 1, true⟩],
        { s.proc with start := s.proc.start - 1 + 1 },
        s.threads.set i ⟨k, .closing s.recs.length⟩⟩
      i s.recs.length ⟨k, .closing s.recs.length⟩ ⟨k, false, v, b, i, 1, 1, true⟩
      (hset _) rfl (List.getElem?_concat_length _ _)
    rw [hsetset, hrecset] at h
    exact h
  have st6 : Step cap
      ⟨s.recs ++ [⟨k, true, v, b, i, 1, 1, true⟩],
        { s.proc with start := s.proc.start - 1 + 1 },
        s.threads.set i ⟨k, .deleting s.recs.length⟩⟩
      ⟨s.recs ++ [⟨k, true, v, b, i, 1, 1, false⟩],
        { s.proc with start := s.proc.start - 1 + 1 },
        s.threads.set i ⟨k, .returning s.recs.length⟩⟩ := by
    have h := @Step.deleteRec cap
      ⟨s.recs ++ [⟨k, true, v, b, i, 1, 1, true⟩],
        { s.proc with start := s.proc.start - 1 + 1 },
        s.threads.set i ⟨k, .deleting s.recs.length⟩⟩
      i s.recs.length ⟨k, .deleting s.recs.length⟩ ⟨k, true, v, b, i, 1, 1, true⟩
      (hset _) rfl (List.getElem?_concat_length _ _)
    rw [hsetset, hrecset] at h
    exact h
  have st7 : Step cap
      ⟨s.recs ++ [⟨k, true, v, b, i, 1, 1, false⟩],
        { s.proc with start := s.proc.start - 1 + 1 },
        s.threads.set i ⟨k, .returning s.recs.length⟩⟩
      ⟨s.recs ++ [⟨k, true, v, b, i, 1, 1, false⟩],
        { s.proc with start := s.proc.start - 1 + 1 },
        s.threads.set i ⟨k, .finished s.recs.length v b⟩⟩ := by
    have h := @Step.ret cap
      ⟨s.recs ++ [⟨k, true, v, b, i, 1, 1, false⟩],
        { s.proc with start := s.proc.start - 1 + 1 },
        s.threads.set i ⟨k, .returning s.recs.length⟩⟩
      i s.recs.length ⟨k, .returning s.recs.length⟩ ⟨k, true, v, b, i, 1, 1, false⟩
      (hset _) rfl (List.getElem?_concat_length _ _)
    rw [hsetset] at h
    exact h
  have hproc : ({ s.proc with start := s.proc.start - 1 + 1 } : Proc) = s.proc := by
    have harith : s.proc.start - 1 + 1 = s.proc.start := by omega
    rw [harith]
  have chain := Relation.ReflTransGen.head st1 (Relation.ReflTransGen.head st2
    (Relation.ReflTransGen.head st3 (Relation.ReflTransGen.head st4
      (Relation.ReflTransGen.head st5 (Relation.ReflTransGen.head st6
        (Relation.ReflTransGen.single st7))))))
  rw [hproc] at chain
  exact chain

/-! ## Derived facts about record shapes -/

theorem ownerShape_invocations_le {cap : Capability} {r : LoadResult} {rid : Nat}
    {pc : PC} (hsh : OwnerShape cap r rid pc) : r.invocations ≤ 1 := by
  cases pc <;> simp [OwnerShape] at hsh <;> simp_all

theorem ownerShape_writes_le {cap : Capability} {r : LoadResult} {rid : Nat}
    {pc : PC} (hsh : OwnerShape cap r rid pc) : r.writes ≤ 1 := by
  cases pc <;> simp [OwnerShape] at hsh <;> simp_all

theorem ownerShape_done_cap {cap : Capability} {r : LoadResult} {rid : Nat}
    {pc : PC} (hsh : OwnerShape cap r rid pc) (hd : r.done = true) :
    cap r.key = some (r.value, r.ok) ∧ r.writes = 1 ∧ r.invocations = 1 := by
  cases pc <;> simp [OwnerShape] at hsh <;> simp_all

theorem ownerShape_done_false_inMap {cap : Capability} {r : LoadResult}
    {rid : Nat} {pc : PC} (hsh : OwnerShape cap r rid pc) (hd : r.done = false) :
    r.inMap = true := by
  cases pc <;> simp [OwnerShape] at hsh <;> simp_all

theorem ownerShape_writes_invocations {cap : Capability} {r : LoadResult}
    {rid : Nat} {pc : PC} (hsh : OwnerShape cap r rid pc) (hw : r.writes = 1) :
    r.invocations = 1 := by
  cases pc <;> simp [OwnerShape] at hsh <;> simp_all

/-- Every caller key in a reachable state is the key it was called with. -/
theorem reach_key_of_init {cap : Capability} {maxProc : Nat} {keys : List Key}
    {s : Loader} (hs : Reach cap (initLoader maxProc keys) s)
    {j : Nat} {t : Caller} (ht : s.threads[j]? = some t) :
    keys[j]? = some t.key := by
  have h := reach_key_stable hs j
  rw [ht] at h
  simp only [initLoader, List.getElem?_map] at h
  rcases hk : keys[j]? with _ | k
  · rw [hk] at h; simp at h
  · rw [hk] at h
    simp only [Option.map_some, Option.map] at h
    injection h with h
    rw [h]

/-! ## Claim theorems -/

/-- C3: every processed shrink signal consumes exactly one token from the
available pool (and is only processed while one is free); the gate's
effective maximum capacity (`maxProc` minus processed shrinks) decreases by
exactly one per processed signal, never increases along any run, and can
never drop below zero (each shrink consumes a real token, so at most
`maxProc` shrinks can ever be processed). -/
theorem gate_monotonic_shrink (cap : Capability) (maxProc : Nat)
    (keys : List Key) (s s2 : Loader)
    (hs : Reach cap (initLoader maxProc keys) s) :
    s.proc.shrinks ≤ maxProc
    ∧ effectiveMax s = (maxProc : Int) - (s.proc.shrinks : Int)
    ∧ 0 ≤ effectiveMax s
    ∧ (Step cap s s2 →
        (s2.proc.shrinks = s.proc.shrinks ∧ effectiveMax s2 = effectiveMax s)
        ∨ (s2.proc.shrinks = s.proc.shrinks + 1 ∧ 0 < s.proc.start
            ∧ s2.proc.start + 1 = s.proc.start
            ∧ effectiveMax s2 = effectiveMax s - 1))
    ∧ (Reach cap s s2 → effectiveMax s2 ≤ effectiveMax s) := by
  have hInv := reach_inv hs
  have hmax : s.proc.maxProc = maxProc := by
    simpa [initLoader] using reach_maxProc_eq hs
  have hgate := hInv.gate
  have hsh : s.proc.shrinks ≤ maxProc := by omega
  refine ⟨hsh, ?_, ?_, ?_, ?_⟩
  · simp only [effectiveMax, hmax]
  · simp only [effectiveMax, hmax]
    omega
  · intro hstep
    cases hstep with
    | shrinkConsume hq htok =>
      right
      refine ⟨rfl, htok, by dsimp only; omega, ?_⟩
      dsimp only [effectiveMax]
      push_cast
      omega
    | registerWaiter i rid t r ht hpc hr hin hk => exact Or.inl ⟨rfl, rfl⟩
    | registerOwner i t ht hpc hnone => exact Or.inl ⟨rfl, rfl⟩
    | waitDone i rid t r ht hpc hr hdone => exact Or.inl ⟨rfl, rfl⟩
    | acquire i rid t ht hpc htok => exact Or.inl ⟨rfl, rfl⟩
    | invokeOk i rid t r v ok ht hpc hr hcap => exact Or.inl ⟨rfl, rfl⟩
    | invokePanic i rid t r ht hpc hr hcap => exact Or.inl ⟨rfl, rfl⟩
    | release i rid t ht hpc => exact Or.inl ⟨rfl, rfl⟩
    | closeDone i rid t r ht hpc hr => exact Or.inl ⟨rfl, rfl⟩
    | deleteRec i rid t r ht hpc hr => exact Or.inl ⟨rfl, rfl⟩
    | ret i rid t r ht hpc hr => exact Or.inl ⟨rfl, rfl⟩
    | shrinkSignal hq => exact Or.inl ⟨rfl, rfl⟩
  · intro hreach
    have h1 := reach_shrinks_mono hreach
    have h2 := reach_maxProc_eq hreach
    simp only [effectiveMax, h2]
    omega



/-- Witness for C3 at a concrete input: two callers, capacity 2, no steps
taken yet. -/
theorem gate_monotonic_shrink_witness :
    Reach (fun _ => none) (initLoader 2 ["x"]) (initLoader 2 ["x"])
    ∧ (initLoader 2 ["x"]).proc.shrinks ≤ 2 := by
  refine ⟨Relation.ReflTransGen.refl, ?_⟩
  exact (gate_monotonic_shrink (fun _ => none) 2 ["x"] (initLoader 2 ["x"])
    (initLoader 2 ["x"]) Relation.ReflTransGen.refl).1

/-- C10: the capacity figure reported by `Status` (`MaxLoaderProc`) is the
`maxProc` passed to `NewLoader`, in every reachable state; no step (in
particular no processed shrink signal) ever changes it, while a processed
shrink signal does remove one available token. -/
theorem max_proc_constant (cap : Capability) (maxProc : Nat) (keys : List Key)
    (s s2 : Loader) (hs : Reach cap (initLoader maxProc keys) s) :
    s.proc.maxProc = maxProc
    ∧ (Status s).MaxLoaderProc = (maxProc : Int)
    ∧ (Step cap s s2 → (Status s2).MaxLoaderProc = (Status s).MaxLoaderProc)
    ∧ (Step cap s s2 → s2.proc.shrinks = s.proc.shrinks + 1 →
        s2.proc.start + 1 = s.proc.start
        ∧ (Status s2).MaxLoaderProc = (maxProc : Int)) := by
  have hmax := reach_maxProc_eq hs
  have hmax0 : (initLoader maxProc keys).proc.maxProc = maxProc := rfl
  rw [hmax0] at hmax
  refine ⟨hmax, by simp [Status, hmax], ?_, ?_⟩
  · intro hstep
    simp [Status, step_maxProc_eq hstep]
  · intro hstep hshr
    constructor
    · cases hstep <;> simp_all <;> omega
    · simp [Status, step_maxProc_eq hstep, hmax]

/-- Witness for C10 at a concrete input. -/
theorem max_proc_constant_witness :
    Reach (fun _ => none) (initLoader 3 []) (initLoader 3 [])
    ∧ (Status (initLoader 3 [])).MaxLoaderProc = 3 := by
  refine ⟨Relation.ReflTransGen.refl, ?_⟩
  exact (max_proc_constant (fun _ => none) 3 [] (initLoader 3 [])
    (initLoader 3 []) Relation.ReflTransGen.refl).2.1

/-- The state of `NewLoader(p, 2)` with no callers after one shrink signal
has been fully processed: one token consumed, none on loan. -/
def shrunkState : Loader :=
  { recs := [], proc := { maxProc := 2, start := 1, shrinkStage := false, shrinks := 1 }
    threads := [] }

/-- Tokens currently on loan: acquired by some caller and not yet released. -/
def onLoan (s : Loader) : Nat := tokenCount s.threads

/-- C4 as stated is false: after one processed shrink (capacity 2, no
callers), the gate's current maximum capacity is 1 and no token is on loan,
yet `Status` reports `MaxLoaderProc = 2` (the original maximum) and
`LoaderProc = 1` (it counts the shrink-consumed token as on loan). -/
theorem status_current_max_counterexample :
    Reach (fun _ => none) (initLoader 2 []) shrunkState
    ∧ effectiveMax shrunkState = 1
    ∧ onLoan shrunkState = 0
    ∧ (Status shrunkState).MaxLoaderProc = 2
    ∧ (Status shrunkState).LoaderProc = 1
    ∧ (Status shrunkState).MaxLoaderProc ≠ effectiveMax shrunkState
    ∧ (Status shrunkState).LoaderProc ≠ (onLoan shrunkState : Int) := by
  refine ⟨?_, by decide, by decide, by decide, by decide, by decide, by decide⟩
  have st1 : Step (fun _ => none) (initLoader 2 [])
      ⟨[], ⟨2, 2, true, 0⟩, []⟩ :=
    Step.shrinkSignal _ rfl
  have st2 : Step (fun _ => none) ⟨[], ⟨2, 2, true, 0⟩, []⟩ shrunkState :=
    Step.shrinkConsume _ rfl (by decide)
  exact Relation.ReflTransGen.head st1 (Relation.ReflTransGen.single st2)

/-- C4 amended: `Status` returns, as one snapshot, the construction-time
maximum `maxProc` and `maxProc` minus the tokens available — which equals
the tokens on loan plus the processed shrink signals, and therefore equals
the tokens on loan exactly when no shrink has been processed.  The in-flight
count is the number of records currently in the map. -/
theorem status_snapshot_amended (cap : Capability) (maxProc : Nat)
    (keys : List Key) (s : Loader)
    (hs : Reach cap (initLoader maxProc keys) s) :
    (Status s).MaxLoaderProc = (maxProc : Int)
    ∧ (Status s).LoaderProc = (maxProc : Int) - (s.proc.start : Int)
    ∧ (Status s).LoaderProc = (onLoan s : Int) + (s.proc.shrinks : Int)
    ∧ (s.proc.shrinks = 0 → (Status s).LoaderProc = (onLoan s : Int))
    ∧ (Status s).InflightLoad = ((s.recs.filter fun r => r.inMap).length : Int) := by
  have hInv := reach_inv hs
  have hmax : s.proc.maxProc = maxProc := by
    simpa [initLoader] using reach_maxProc_eq hs
  have hgate := hInv.gate
  refine ⟨by simp [Status, hmax], by simp [Status, hmax], ?_, ?_, by simp [Status]⟩
  · simp only [Status, onLoan, hmax]
    omega
  · intro h0
    simp only [Status, onLoan, hmax]
    omega

/-- Witness for the amended C4 at a concrete input. -/
theorem status_snapshot_amended_witness :
    Reach (fun _ => none) (initLoader 2 ["x"]) (initLoader 2 ["x"])
    ∧ (Status (initLoader 2 ["x"])).MaxLoaderProc = 2 := by
  refine ⟨Relation.ReflTransGen.refl, ?_⟩
  exact (status_snapshot_amended (fun _ => none) 2 ["x"] (initLoader 2 ["x"])
    Relation.ReflTransGen.refl).1

/-- A caller currently blocked inside `Load`: either parked on a record's
`done` channel that has not been closed yet, or parked on `<-l.start` with
no token available.  (A caller at `.ready` briefly contends on `l.mtx`,
which is never held across blocking operations and is not modelled as a
blocking point.) -/
def blockedInLoad (s : Loader) (t : Caller) : Prop :=
  (∃ rid r, t.pc = .waiting rid ∧ s.recs[rid]? = some r ∧ r.done = false)
  ∨ (∃ rid, t.pc = .acquiring rid ∧ s.proc.start = 0)

/-- The deleting-window state: the single caller for "x" has loaded,
released its token and closed `done`, but has not yet deleted the record. -/
def deletingWindow : Loader :=
  { recs := [{ key := "x", done := true, value := [], ok := true, owner := 0,
               invocations := 1, writes := 1, inMap := true }]
    proc := { maxProc := 1, start := 1, shrinkStage := false, shrinks := 0 }
    threads := [{ key := "x", pc := .deleting 0 }] }

/-- C7's second half as stated is false: in the window after `close(f.done)`
and before `delete(l.inFlight, key)`, `Status().InflightLoad` is 1 although
no caller is blocked in `Load` (the owner is running, every waiter has been
released), so it differs from the number of distinct keys with a blocked
caller, which is 0. -/
theorem inflight_count_counterexample :
    Reach (fun _ => some ([], true)) (initLoader 1 ["x"]) deletingWindow
    ∧ (Status deletingWindow).InflightLoad = 1
    ∧ (∀ t ∈ deletingWindow.threads, ¬ blockedInLoad deletingWindow t) := by
  refine ⟨?_, by decide, ?_⟩
  · have st1 : Step (fun _ => some ([], true)) (initLoader 1 ["x"])
        ⟨[⟨"x", false, [], false, 0, 0, 0, true⟩], ⟨1, 1, false, 0⟩,
          [⟨"x", .acquiring 0⟩]⟩ := by
      refine Step.registerOwner _ 0 ⟨"x", .ready⟩ ?_ rfl ?_ <;> simp [initLoader]
    have st2 : Step (fun _ => some ([], true))
        ⟨[⟨"x", false, [], false, 0, 0, 0, true⟩], ⟨1, 1, false, 0⟩,
          [⟨"x", .acquiring 0⟩]⟩
        ⟨[⟨"x", false, [], false, 0, 0, 0, true⟩], ⟨1, 0, false, 0⟩,
          [⟨"x", .invoking 0⟩]⟩ := by
      refine Step.acquire _ 0 0 ⟨"x", .acquiring 0⟩ ?_ rfl (by decide)
      simp
    have st3 : Step (fun _ => some ([], true))
        ⟨[⟨"x", false, [], false, 0, 0, 0, true⟩], ⟨1, 0, false, 0⟩,
          [⟨"x", .invoking 0⟩]⟩
        ⟨[⟨"x", false, [], true, 0, 1, 1, true⟩], ⟨1, 0, false, 0⟩,
          [⟨"x", .releasing 0⟩]⟩ := by
      refine Step.invokeOk _ 0 0 ⟨"x", .invoking 0⟩
        ⟨"x", false, [], false, 0, 0, 0, true⟩ [] true ?_ rfl ?_ rfl <;> simp
    have st4 : Step (fun _ => some ([], true))
        ⟨[⟨"x", false, [], true, 0, 1, 1, true⟩], ⟨1, 0, false, 0⟩,
          [⟨"x", .releasing 0⟩]⟩
        ⟨[⟨"x", false, [], true, 0, 1, 1, true⟩], ⟨1, 1, false, 0⟩,
          [⟨"x", .closing 0⟩]⟩ := by
      refine Step.release _ 0 0 ⟨"x", .releasing 0⟩ ?_ rfl
      simp
    have st5 : Step (fun _ => some ([], true))
        ⟨[⟨"x", false, [], true, 0, 1, 1, true⟩], ⟨1, 1, false, 0⟩,
          [⟨"x", .closing 0⟩]⟩ deletingWindow := by
      refine Step.closeDone _ 0 0 ⟨"x", .closing 0⟩
        ⟨"x", false, [], true, 0, 1, 1, true⟩ ?_ rfl ?_ <;> simp
    exact Relation.ReflTransGen.head st1 (Relation.ReflTransGen.head st2
      (Relation.ReflTransGen.head st3 (Relation.ReflTransGen.head st4
        (Relation.ReflTransGen.single st5))))
  · intro t htmem hblocked
    have ht : t = ⟨"x", .deleting 0⟩ := by
      simpa [deletingWindow] using htmem
    rcases hblocked with ⟨rid, r, hpc, _, _⟩ | ⟨rid, hpc, _⟩ <;>
      rw [ht] at hpc <;> cases hpc

/-- C7 amended: `Status().LoaderProc` always lies between 0 and
`Status().MaxLoaderProc`, and `Status().InflightLoad` is the number of
records currently in the in-flight map; every key with a caller blocked in
`Load` has such a record (but a record may linger briefly after completion,
before the owner deletes it, with no blocked caller). -/
theorem status_bounds_amended (cap : Capability) (maxProc : Nat)
    (keys : List Key) (s : Loader)
    (hs : Reach cap (initLoader maxProc keys) s) :
    0 ≤ (Status s).LoaderProc
    ∧ (Status s).LoaderProc ≤ (Status s).MaxLoaderProc
    ∧ (Status s).InflightLoad = ((s.recs.filter fun r => r.inMap).length : Int)
    ∧ (∀ (i : Nat) (t : Caller), s.threads[i]? = some t → blockedInLoad s t →
        ∃ (rid : Nat) (r : LoadResult),
          s.recs[rid]? = some r ∧ r.inMap = true ∧ r.key = t.key) := by
  have hInv := reach_inv hs
  have hgate := hInv.gate
  refine ⟨?_, ?_, by simp [Status], ?_⟩
  · simp only [Status]
    omega
  · simp only [Status]
    omega
  · intro i t ht hblocked
    rcases hblocked with ⟨rid, r, hpc, hr, hdone⟩ | ⟨rid, hpc, hstart⟩
    · have hci := hInv.thr_inv i t ht
      simp only [CallerInv, hpc] at hci
      rcases hci with ⟨r0, hr0, hk0, _⟩
      have : r0 = r := Option.some.inj (hr0.symm.trans hr)
      subst this
      rcases hInv.rec_inv rid r0 hr0 with ⟨t', _, _, hsh⟩
      exact ⟨rid, r0, hr0, ownerShape_done_false_inMap hsh hdone, hk0⟩
    · have hci := hInv.thr_inv i t ht
      simp only [CallerInv, hpc] at hci
      rcases hci with ⟨r0, hr0, hown0⟩
      rcases hInv.rec_inv rid r0 hr0 with ⟨t', ht', hk', hsh⟩
      rw [hown0, ht] at ht'
      injection ht' with ht'
      subst ht'
      rw [hpc] at hsh
      rcases hsh with ⟨_, _, _, _, hmap⟩
      exact ⟨rid, r0, hr0, hmap, hk'.symm⟩

/-- Witness for the amended C7 at a concrete input. -/
theorem status_bounds_amended_witness :
    Reach (fun _ => none) (initLoader 1 ["x"]) (initLoader 1 ["x"])
    ∧ 0 ≤ (Status (initLoader 1 ["x"])).LoaderProc := by
  refine ⟨Relation.ReflTransGen.refl, ?_⟩
  exact (status_bounds_amended (fun _ => none) 1 ["x"] (initLoader 1 ["x"])
    Relation.ReflTransGen.refl).1

/-- C1: `N` concurrent `Load(k)` calls starting with no load outstanding
collapse onto one episode.  The schedule in which all `N` calls register
before the owner completes invokes the capability exactly once and every
call returns the identical pair; moreover in every reachable state of every
schedule, no record is ever loaded more than once and every finished call
returned exactly the capability's pair `(v, b)`. -/
theorem load_collapsing (cap : Capability) (maxProc N : Nat) (k : Key)
    (v : Value) (b : Bool) (hN : 0 < N) (hm : 0 < maxProc)
    (hcap : cap k = some (v, b)) :
    (Reach cap (initLoader maxProc (List.replicate N k))
        (collapsedFinal maxProc N k v b)
      ∧ totalInvocations (collapsedFinal maxProc N k v b) k = 1
      ∧ (∀ (i : Nat) (t : Caller),
          (collapsedFinal maxProc N k v b).threads[i]? = some t →
            t.pc = .finished 0 v b))
    ∧ (∀ s, Reach cap (initLoader maxProc (List.replicate N k)) s →
        (∀ (rid : Nat) (r : LoadResult), s.recs[rid]? = some r →
          r.invocations ≤ 1)
        ∧ (∀ (i rid : Nat) (t : Caller) (v2 : Value) (b2 : Bool),
            s.threads[i]? = some t → t.pc = .finished rid v2 b2 →
              v2 = v ∧ b2 = b)) := by
  obtain ⟨p, rfl⟩ : ∃ p, N = p + 1 := ⟨N - 1, by omega⟩
  refine ⟨⟨collapse_exec cap maxProc p k v b hm hcap, ?_, ?_⟩, ?_⟩
  · simp [totalInvocations, collapsedFinal]
  · intro i t ht
    simp only [collapsedFinal, List.getElem?_replicate] at ht
    rcases Nat.lt_or_ge i (p + 1) with hlt | hge
    · rw [if_pos hlt] at ht
      injection ht with ht
      rw [← ht]
    · rw [if_neg (by omega)] at ht
      cases ht
  · intro s hs
    have hInv := reach_inv hs
    constructor
    · intro rid r hr
      rcases hInv.rec_inv rid r hr with ⟨t', _, _, hsh⟩
      exact ownerShape_invocations_le hsh
    · intro i rid t v2 b2 ht hpc
      have hci := hInv.thr_inv i t ht
      simp only [CallerInv, hpc] at hci
      rcases hci with ⟨r, hr, hk0, hv2, hb2, hdone⟩
      rcases hInv.rec_inv rid r hr with ⟨t', ht', hk', hsh⟩
      have hcapr := (ownerShape_done_cap hsh hdone).1
      -- the record's key is k: its owner's key comes from the initial keys
      have hkey := reach_key_of_init hs ht'
      rw [List.getElem?_replicate] at hkey
      have hklt : r.owner < p + 1 := by
        by_contra hge
        rw [if_neg hge] at hkey
        cases hkey
      rw [if_pos hklt] at hkey
      injection hkey with hkey
      have hkr : r.key = k := (hkey.trans hk').symm
      rw [hkr, hcap] at hcapr
      injection hcapr with hcapr
      injection hcapr with hv hb
      constructor
      · rw [hv2, ← hv]
      · rw [hb2, ← hb]

/-- Witness for C1 at a concrete input: three callers, capacity 2. -/
theorem load_collapsing_witness :
    (0 < 3 ∧ 0 < 2
      ∧ (fun _ => some ([7], true) : Capability) "a" = some ([7], true))
    ∧ Reach (fun _ => some ([7], true)) (initLoader 2 (List.replicate 3 "a"))
        (collapsedFinal 2 3 "a" [7] true)
    ∧ totalInvocations (collapsedFinal 2 3 "a" [7] true) "a" = 1 :=
  ⟨⟨by decide, by decide, rfl⟩,
    (load_collapsing (fun _ => some ([7], true)) 2 3 "a" [7] true
      (by decide) (by decide) rfl).1.1,
    (load_collapsing (fun _ => some ([7], true)) 2 3 "a" [7] true
      (by decide) (by decide) rfl).1.2.1⟩

theorem inv_reach {cap : Capability} {s s2 : Loader} (hInv : Inv cap s)
    (h : Reach cap s s2) : Inv cap s2 := by
  induction h with
  | refl => exact hInv
  | tail _ hstep ih => exact inv_step ih hstep

/-- Once a record's completion signal has fired, one step cannot change its
result fields any more. -/
theorem step_done_frozen {cap : Capability} {s s' : Loader} (hInv : Inv cap s)
    (hstep : Step cap s s') {rid : Nat} {r : LoadResult}
    (hr : s.recs[rid]? = some r) (hdone : r.done = true) :
    ∃ r2, s'.recs[rid]? = some r2 ∧ r2.value = r.value ∧ r2.ok = r.ok
      ∧ r2.done = true := by
  have hbusy : ∀ (i rid2 : Nat) (t : Caller), s.threads[i]? = some t →
      t.pc = .invoking rid2 → rid2 = rid → False := by
    intro i rid2 t ht hpc hrid
    subst hrid
    have hci := hInv.thr_inv i t ht
    simp only [CallerInv, hpc] at hci
    rcases hci with ⟨r0, hr0, hown0⟩
    have : r0 = r := Option.some.inj (hr0.symm.trans hr)
    subst this
    rcases owner_pc_rid hInv ht hr0 hown0 with ⟨_, hsh, _⟩
    rw [hpc] at hsh
    rcases hsh with ⟨_, hdF, _⟩
    rw [hdone] at hdF
    exact absurd hdF (by simp)
  cases hstep with
  | registerWaiter i rid2 t r2 ht hpc hr2 hin hk => exact ⟨r, hr, rfl, rfl, hdone⟩
  | registerOwner i t ht hpc hnone =>
    exact ⟨r, getElem?_append_some hr, rfl, rfl, hdone⟩
  | waitDone i rid2 t r2 ht hpc hr2 hd2 => exact ⟨r, hr, rfl, rfl, hdone⟩
  | acquire i rid2 t ht hpc htok => exact ⟨r, hr, rfl, rfl, hdone⟩
  | invokeOk i rid2 t r2 v ok ht hpc hr2 hcap =>
    rcases eq_or_ne rid2 rid with rfl | hne
    · exact absurd rfl (fun h => hbusy i rid2 t ht hpc h)
    · exact ⟨r, by dsimp only; rw [List.getElem?_set_ne hne]; exact hr,
        rfl, rfl, hdone⟩
  | invokePanic i rid2 t r2 ht hpc hr2 hcap =>
    rcases eq_or_ne rid2 rid with rfl | hne
    · exact absurd rfl (fun h => hbusy i rid2 t ht hpc h)
    · exact ⟨r, by dsimp only; rw [List.getElem?_set_ne hne]; exact hr,
        rfl, rfl, hdone⟩
  | release i rid2 t ht hpc => exact ⟨r, hr, rfl, rfl, hdone⟩
  | closeDone i rid2 t r2 ht hpc hr2 =>
    rcases eq_or_ne rid2 rid with rfl | hne
    · have : r2 = r := Option.some.inj (hr2.symm.trans hr)
      subst this
      exact ⟨{ r2 with done := true }, by dsimp only; exact getElem?_set_self_of hr2,
        rfl, rfl, rfl⟩
    · exact ⟨r, by dsimp only; rw [List.getElem?_set_ne hne]; exact hr,
        rfl, rfl, hdone⟩
  | deleteRec i rid2 t r2 ht hpc hr2 =>
    rcases eq_or_ne rid2 rid with rfl | hne
    · have : r2 = r := Option.some.inj (hr2.symm.trans hr)
      subst this
      exact ⟨{ r2 with inMap := false }, by dsimp only; exact getElem?_set_self_of hr2,
        rfl, rfl, hdone⟩
    · exact ⟨r, by dsimp only; rw [List.getElem?_set_ne hne]; exact hr,
        rfl, rfl, hdone⟩
  | ret i rid2 t r2 ht hpc hr2 => exact ⟨r, hr, rfl, rfl, hdone⟩
  | shrinkSignal hq => exact ⟨r, hr, rfl, rfl, hdone⟩
  | shrinkConsume hq htok => exact ⟨r, hr, rfl, rfl, hdone⟩

/-- Once a record's completion signal has fired, its result fields are
frozen for the rest of the run. -/
theorem reach_done_frozen {cap : Capability} {s s2 : Loader} (hInv : Inv cap s)
    (h : Reach cap s s2) {rid : Nat} {r : LoadResult}
    (hr : s.recs[rid]? = some r) (hdone : r.done = true) :
    ∃ r2, s2.recs[rid]? = some r2 ∧ r2.value = r.value ∧ r2.ok = r.ok
      ∧ r2.done = true := by
  induction h with
  | refl => exact ⟨r, hr, rfl, rfl, hdone⟩
  | tail hab hstep ih =>
    rcases ih with ⟨r2, hr2, hv, ho, hd⟩
    rcases step_done_frozen (inv_reach hInv hab) hstep hr2 hd with
      ⟨r3, hr3, hv3, ho3, hd3⟩
    exact ⟨r3, hr3, hv3.trans hv, ho3.trans ho, hd3⟩

/-- C6: a record's `(value, ok)` pair is written at most once — exactly once
before the completion signal fires, by the owner's single capability call —
and equals the capability's result; every caller that finished through the
record observed the signal first and read exactly that pair; and after the
signal the pair never changes again. -/
theorem result_written_once_before_signal (cap : Capability) (maxProc : Nat)
    (keys : List Key) (s : Loader)
    (hs : Reach cap (initLoader maxProc keys) s) :
    ∀ (rid : Nat) (r : LoadResult), s.recs[rid]? = some r →
      r.writes ≤ 1
      ∧ (r.done = true → r.writes = 1 ∧ cap r.key = some (r.value, r.ok))
      ∧ (r.writes = 1 → r.invocations = 1)
      ∧ (∀ (i : Nat) (t : Caller) (v2 : Value) (b2 : Bool),
          s.threads[i]? = some t → t.pc = .finished rid v2 b2 →
            r.done = true ∧ v2 = r.value ∧ b2 = r.ok)
      ∧ (∀ s2, Reach cap s s2 → r.done = true →
          ∃ r2, s2.recs[rid]? = some r2 ∧ r2.value = r.value ∧ r2.ok = r.ok
            ∧ r2.done = true) := by
  have hInv := reach_inv hs
  intro rid r hr
  rcases hInv.rec_inv rid r hr with ⟨t', ht', hk', hsh⟩
  refine ⟨ownerShape_writes_le hsh, ?_, ownerShape_writes_invocations hsh, ?_, ?_⟩
  · intro hdone
    have h := ownerShape_done_cap hsh hdone
    exact ⟨h.2.1, h.1⟩
  · intro i t v2 b2 ht hpc
    have hci := hInv.thr_inv i t ht
    simp only [CallerInv, hpc] at hci
    rcases hci with ⟨r0, hr0, _, hv2, hb2, hd0⟩
    have : r0 = r := Option.some.inj (hr0.symm.trans hr)
    subst this
    exact ⟨hd0, hv2, hb2⟩
  · intro s2 h2 hdone
    exact reach_done_frozen hInv h2 hr hdone

/-- Witness for C6 at a concrete input: run the collapsed 2-caller episode
for key "a" and inspect its record. -/
theorem result_written_once_witness :
    Reach (fun _ => some ([5], true)) (initLoader 1 (List.replicate 2 "a"))
      (collapsedFinal 1 2 "a" [5] true)
    ∧ (∀ (rid : Nat) (r : LoadResult),
        (collapsedFinal 1 2 "a" [5] true).recs[rid]? = some r →
          r.writes ≤ 1) := by
  have hreach := collapse_exec (fun _ => some ([5], true)) 1 1 "a" [5] true
    (by decide) rfl
  refine ⟨hreach, ?_⟩
  intro rid r hr
  exact (result_written_once_before_signal (fun _ => some ([5], true)) 1
    (List.replicate 2 "a") (collapsedFinal 1 2 "a" [5] true) hreach rid r hr).1

/-- The state after the owner for "x" panicked inside `l.p.Load` with one
waiter attached (capacity 1): the token was consumed and never returned, the
record is still in the map with `done` never closed. -/
def panickedState : Loader :=
  { recs := [{ key := "x", done := false, value := [], ok := false, owner := 0,
               invocations := 1, writes := 0, inMap := true }]
    proc := { maxProc := 1, start := 0, shrinkStage := false, shrinks := 0 }
    threads := [{ key := "x", pc := .crashed 0 }, { key := "x", pc := .waiting 0 }] }

/-- From `panickedState` nothing can ever unblock the waiter: there is no
`defer` in `Load`, so after a panic no step releases the token, closes
`done`, or removes the record. -/
theorem panicked_stuck :
    ∀ s', Reach (fun _ => none) panickedState s' →
      s'.recs = panickedState.recs ∧ s'.threads = panickedState.threads
      ∧ s'.proc.start = 0 := by
  intro s' h
  induction h with
  | refl => exact ⟨rfl, rfl, rfl⟩
  | tail hab hstep ih =>
    rcases ih with ⟨hrecs, hthreads, hstart⟩
    cases hstep with
    | registerWaiter i rid t r ht hpc hr hin hk =>
      rw [hthreads] at ht
      rcases i with _ | _ | i
      · have := Option.some.inj ht
        rw [← this] at hpc
        cases hpc
      · have := Option.some.inj ht
        rw [← this] at hpc
        cases hpc
      · simp [panickedState] at ht
    | registerOwner i t ht hpc hnone =>
      rw [hthreads] at ht
      rcases i with _ | _ | i
      · have := Option.some.inj ht
        rw [← this] at hpc
        cases hpc
      · have := Option.some.inj ht
        rw [← this] at hpc
        cases hpc
      · simp [panickedState] at ht
    | waitDone i rid t r ht hpc hr hdone =>
      rw [hthreads] at ht
      rw [hrecs] at hr
      rcases i with _ | _ | i
      · have := Option.some.inj ht
        rw [← this] at hpc
        cases hpc
      · have := Option.some.inj ht
        rw [← this] at hpc
        injection hpc with hpc
        subst hpc
        have hrr := Option.some.inj hr
        rw [← hrr] at hdone
        cases hdone
      · simp [panickedState] at ht
    | acquire i rid t ht hpc htok =>
      rw [hthreads] at ht
      rcases i with _ | _ | i
      · have := Option.some.inj ht
        rw [← this] at hpc
        cases hpc
      · have := Option.some.inj ht
        rw [← this] at hpc
        cases hpc
      · simp [panickedState] at ht
    | invokeOk i rid t r v ok ht hpc hr hcap =>
      rw [hthreads] at ht
      rcases i with _ | _ | i
      · have := Option.some.inj ht
        rw [← this] at hpc
        cases hpc
      · have := Option.some.inj ht
        rw [← this] at hpc
        cases hpc
      · simp [panickedState] at ht
    | invokePanic i rid t r ht hpc hr hcap =>
      rw [hthreads] at ht
      rcases i with _ | _ | i
      · have := Option.some.inj ht
        rw [← this] at hpc
        cases hpc
      · have := Option.some.inj ht
        rw [← this] at hpc
        cases hpc
      · simp [panickedState] at ht
    | release i rid t ht hpc =>
      rw [hthreads] at ht
      rcases i with _ | _ | i
      · have := Option.some.inj ht
        rw [← this] at hpc
        cases hpc
      · have := Option.some.inj ht
        rw [← this] at hpc
        cases hpc
      · simp [panickedState] at ht
    | closeDone i rid t r ht hpc hr =>
      rw [hthreads] at ht
      rcases i with _ | _ | i
      · have := Option.some.inj ht
        rw [← this] at hpc
        cases hpc
      · have := Option.some.inj ht
        rw [← this] at hpc
        cases hpc
      · simp [panickedState] at ht
    | deleteRec i rid t r ht hpc hr =>
      rw [hthreads] at ht
      rcases i with _ | _ | i
      · have := Option.some.inj ht
        rw [← this] at hpc
        cases hpc
      · have := Option.some.inj ht
        rw [← this] at hpc
        cases hpc
      · simp [panickedState] at ht
    | ret i rid t r ht hpc hr =>
      rw [hthreads] at ht
      rcases i with _ | _ | i
      · have := Option.some.inj ht
        rw [← this] at hpc
        cases hpc
      · have := Option.some.inj ht
        rw [← this] at hpc
        cases hpc
      · simp [panickedState] at ht
    | shrinkSignal hq => exact ⟨hrecs, hthreads, hstart⟩
    | shrinkConsume hq htok =>
      rw [hstart] at htok
      exact absurd htok (by decide)

/-- C2 is violated by the code: `Load` has no `defer`, so if the capability
exits abnormally (modelled by `cap = fun _ => none`, two callers for "x",
capacity 1) the owner dies between `<-l.start` and `l.start <- struct{}{}`.
A reachable state has the owner crashed and one waiter attached, and from it
no continuation ever returns the token (`start` stays 0 forever, the whole
capacity is lost), closes `done`, or unblocks the waiter. -/
theorem panic_leaves_waiter_blocked :
    Reach (fun _ => none) (initLoader 1 ["x", "x"]) panickedState
    ∧ panickedState.threads[0]? = some ⟨"x", .crashed 0⟩
    ∧ panickedState.threads[1]? = some ⟨"x", .waiting 0⟩
    ∧ panickedState.proc.start = 0
    ∧ (∀ s', Reach (fun _ => none) panickedState s' →
        s'.proc.start = 0
        ∧ s'.threads[1]? = some ⟨"x", .waiting 0⟩
        ∧ ∀ r, s'.recs[0]? = some r → r.done = false) := by
  refine ⟨?_, rfl, rfl, rfl, ?_⟩
  · have st1 : Step (fun _ => none) (initLoader 1 ["x", "x"])
        ⟨[⟨"x", false, [], false, 0, 0, 0, true⟩], ⟨1, 1, false, 0⟩,
          [⟨"x", .acquiring 0⟩, ⟨"x", .ready⟩]⟩ := by
      refine Step.registerOwner _ 0 ⟨"x", .ready⟩ ?_ rfl ?_ <;> simp [initLoader]
    have st2 : Step (fun _ => none)
        ⟨[⟨"x", false, [], false, 0, 0, 0, true⟩], ⟨1, 1, false, 0⟩,
          [⟨"x", .acquiring 0⟩, ⟨"x", .ready⟩]⟩
        ⟨[⟨"x", false, [], false, 0, 0, 0, true⟩], ⟨1, 1, false, 0⟩,
          [⟨"x", .acquiring 0⟩, ⟨"x", .waiting 0⟩]⟩ := by
      refine Step.registerWaiter _ 1 0 ⟨"x", .ready⟩
        ⟨"x", false, [], false, 0, 0, 0, true⟩ ?_ rfl ?_ rfl rfl <;> simp
    have st3 : Step (fun _ => none)
        ⟨[⟨"x", false, [], false, 0, 0, 0, true⟩], ⟨1, 1, false, 0⟩,
          [⟨"x", .acquiring 0⟩, ⟨"x", .waiting 0⟩]⟩
        ⟨[⟨"x", false, [], false, 0, 0, 0, true⟩], ⟨1, 0, false, 0⟩,
          [⟨"x", .invoking 0⟩, ⟨"x", .waiting 0⟩]⟩ := by
      refine Step.acquire _ 0 0 ⟨"x", .acquiring 0⟩ ?_ rfl (by decide)
      simp
    have st4 : Step (fun _ => none)
        ⟨[⟨"x", false, [], false, 0, 0, 0, true⟩], ⟨1, 0, false, 0⟩,
          [⟨"x", .invoking 0⟩, ⟨"x", .waiting 0⟩]⟩ panickedState := by
      refine Step.invokePanic _ 0 0 ⟨"x", .invoking 0⟩
        ⟨"x", false, [], false, 0, 0, 0, true⟩ ?_ rfl ?_ rfl <;> simp
    exact Relation.ReflTransGen.head st1 (Relation.ReflTransGen.head st2
      (Relation.ReflTransGen.head st3 (Relation.ReflTransGen.single st4)))
  · intro s' h
    rcases panicked_stuck s' h with ⟨hrecs, hthreads, hstart⟩
    refine ⟨hstart, by rw [hthreads]; rfl, ?_⟩
    intro r hr
    rw [hrecs] at hr
    have := Option.some.inj hr
    rw [← this]
    decide

/-- Two back-to-back episodes for the same key: caller 0 completes its whole
`Load` before caller 1 starts; each episode creates its own record and
invokes the capability once. -/
theorem two_sequential_episodes (cap : Capability) (maxProc : Nat) (k : Key)
    (v : Value) (b : Bool) (hm : 0 < maxProc) (hcap : cap k = some (v, b)) :
    Reach cap (initLoader maxProc [k, k])
      ⟨[⟨k, true, v, b, 0, 1, 1, false⟩, ⟨k, true, v, b, 1, 1, 1, false⟩],
        ⟨maxProc, maxProc, false, 0⟩,
        [⟨k, .finished 0 v b⟩, ⟨k, .finished 1 v b⟩]⟩ := by
  have h0 : initLoader maxProc [k, k]
      = ⟨[], ⟨maxProc, maxProc, false, 0⟩, [⟨k, .ready⟩, ⟨k, .ready⟩]⟩ := by
    simp [initLoader]
  rw [h0]
  have h1 := ownerEpisode cap ⟨[], ⟨maxProc, maxProc, false, 0⟩,
      [⟨k, .ready⟩, ⟨k, .ready⟩]⟩ 0 k v b (by simp) hcap (by simp) hm
  simp only [List.nil_append, List.length_nil, List.set_cons_zero] at h1
  have h2 := ownerEpisode cap ⟨[⟨k, true, v, b, 0, 1, 1, false⟩],
      ⟨maxProc, maxProc, false, 0⟩, [⟨k, .finished 0 v b⟩, ⟨k, .ready⟩]⟩
      1 k v b (by simp) hcap (by simp) hm
  simp only [List.length_cons, List.length_nil, List.set_cons_succ,
    List.set_cons_zero, List.cons_append, List.nil_append, Nat.zero_add] at h2
  exact Relation.ReflTransGen.trans h1 h2

/-- C8: two `Load(k)` calls where the first has fully completed (record
removed) before the second begins are independent episodes: two records are
created, each loaded exactly once, for two capability invocations in
total. -/
theorem episode_independence (cap : Capability) (maxProc : Nat) (k : Key)
    (v : Value) (b : Bool) (hm : 0 < maxProc) (hcap : cap k = some (v, b)) :
    ∃ sFin, Reach cap (initLoader maxProc [k, k]) sFin
      ∧ sFin.recs.length = 2
      ∧ (∀ r ∈ sFin.recs, r.key = k ∧ r.invocations = 1 ∧ r.inMap = false)
      ∧ totalInvocations sFin k = 2
      ∧ sFin.threads = [⟨k, .finished 0 v b⟩, ⟨k, .finished 1 v b⟩] := by
  refine ⟨_, two_sequential_episodes cap maxProc k v b hm hcap, rfl, ?_, ?_, rfl⟩
  · intro r hrm
    simp only [List.mem_cons, List.not_mem_nil, or_false] at hrm
    rcases hrm with rfl | rfl <;> exact ⟨rfl, rfl, rfl⟩
  · simp [totalInvocations]

/-- Witness for C8 at a concrete input. -/
theorem episode_independence_witness :
    (0 < 1 ∧ (fun _ => some ([2], false) : Capability) "y" = some ([2], false))
    ∧ ∃ sFin, Reach (fun _ => some ([2], false)) (initLoader 1 ["y", "y"]) sFin
        ∧ totalInvocations sFin "y" = 2 := by
  refine ⟨⟨by decide, rfl⟩, ?_⟩
  rcases episode_independence (fun _ => some ([2], false)) 1 "y" [2] false
    (by decide) rfl with ⟨sFin, hreach, _, _, htot, _⟩
  exact ⟨sFin, hreach, htot⟩

/-- C5: a failed load (`success = false`) is not retried within its episode
(no record is ever loaded twice), every caller of the collapsed episode
returns the identical `(v, false)`, the record is removed, and a subsequent
`Load(k)` after completion invokes the capability again (two sequential
episodes make two invocations in total). -/
theorem failed_load_not_retried (cap : Capability) (maxProc N : Nat) (k : Key)
    (v : Value) (hN : 0 < N) (hm : 0 < maxProc)
    (hcap : cap k = some (v, false)) :
    (∀ (keys : List Key) (s : Loader), Reach cap (initLoader maxProc keys) s →
        ∀ (rid : Nat) (r : LoadResult), s.recs[rid]? = some r →
          r.invocations ≤ 1)
    ∧ Reach cap (initLoader maxProc (List.replicate N k))
        (collapsedFinal maxProc N k v false)
    ∧ (∀ (i : Nat) (t : Caller),
        (collapsedFinal maxProc N k v false).threads[i]? = some t →
          t.pc = .finished 0 v false)
    ∧ (∀ r ∈ (collapsedFinal maxProc N k v false).recs, r.inMap = false)
    ∧ (∃ sFin, Reach cap (initLoader maxProc [k, k]) sFin
        ∧ totalInvocations sFin k = 2) := by
  obtain ⟨p, rfl⟩ : ∃ p, N = p + 1 := ⟨N - 1, by omega⟩
  refine ⟨?_, collapse_exec cap maxProc p k v false hm hcap, ?_, ?_, ?_⟩
  · intro keys s hs rid r hr
    rcases (reach_inv hs).rec_inv rid r hr with ⟨t', _, _, hsh⟩
    exact ownerShape_invocations_le hsh
  · intro i t ht
    simp only [collapsedFinal, List.getElem?_replicate] at ht
    rcases Nat.lt_or_ge i (p + 1) with hlt | hge
    · rw [if_pos hlt] at ht
      injection ht with ht
      rw [← ht]
    · rw [if_neg (by omega)] at ht
      cases ht
  · intro r hrm
    simp only [collapsedFinal, List.mem_cons, List.not_mem_nil, or_false] at hrm
    rw [hrm]
  · refine ⟨_, two_sequential_episodes cap maxProc k v false hm hcap, ?_⟩
    simp [totalInvocations]

/-- Witness for C5 at a concrete input. -/
theorem failed_load_not_retried_witness :
    (0 < 2 ∧ 0 < 1
      ∧ (fun _ => some ([], false) : Capability) "x" = some ([], false))
    ∧ Reach (fun _ => some ([], false)) (initLoader 1 (List.replicate 2 "x"))
        (collapsedFinal 1 2 "x" [] false) :=
  ⟨⟨by decide, by decide, rfl⟩,
    (failed_load_not_retried (fun _ => some ([], false)) 1 2 "x" []
      (by decide) (by decide) rfl).2.1⟩

/-- C9: a `Load(k)` call that finds an existing record whose `done` channel
has already been closed — the window between `close(f.done)` and
`delete(l.inFlight, key)` — performs zero capability invocations: it
attaches as a waiter, its `<-f.done` completes immediately, and it returns
the stored pair; the total invocation count for `k` stays 1 across both of
its steps. -/
theorem late_waiter_zero_invocations (cap : Capability) (maxProc : Nat)
    (k : Key) (v : Value) (b : Bool) (hm : 0 < maxProc)
    (hcap : cap k = some (v, b)) :
    ∃ sMid s2 s3,
      Reach cap (initLoader maxProc [k, k]) sMid
      ∧ sMid.threads[1]? = some ⟨k, .ready⟩
      ∧ (∃ r, sMid.recs[0]? = some r ∧ r.done = true ∧ r.inMap = true
          ∧ r.value = v ∧ r.ok = b)
      ∧ totalInvocations sMid k = 1
      ∧ Step cap sMid s2 ∧ s2.threads[1]? = some ⟨k, .waiting 0⟩
      ∧ s2.recs = sMid.recs
      ∧ Step cap s2 s3 ∧ s3.threads[1]? = some ⟨k, .finished 0 v b⟩
      ∧ s3.recs = sMid.recs
      ∧ totalInvocations s3 k = 1 := by
  refine ⟨⟨[⟨k, true, v, b, 0, 1, 1, true⟩], ⟨maxProc, maxProc - 1 + 1, false, 0⟩,
      [⟨k, .deleting 0⟩, ⟨k, .ready⟩]⟩,
    ⟨[⟨k, true, v, b, 0, 1, 1, true⟩], ⟨maxProc, maxProc - 1 + 1, false, 0⟩,
      [⟨k, .deleting 0⟩, ⟨k, .waiting 0⟩]⟩,
    ⟨[⟨k, true, v, b, 0, 1, 1, true⟩], ⟨maxProc, maxProc - 1 + 1, false, 0⟩,
      [⟨k, .deleting 0⟩, ⟨k, .finished 0 v b⟩]⟩,
    ?_, rfl, ⟨_, rfl, rfl, rfl, rfl, rfl⟩, ?_, ?_, rfl, rfl, ?_, rfl, rfl, ?_⟩
  · have h0 : initLoader maxProc [k, k]
        = ⟨[], ⟨maxProc, maxProc, false, 0⟩, [⟨k, .ready⟩, ⟨k, .ready⟩]⟩ := by
      simp [initLoader]
    rw [h0]
    have st1 : Step cap ⟨[], ⟨maxProc, maxProc, false, 0⟩,
        [⟨k, .ready⟩, ⟨k, .ready⟩]⟩
        ⟨[⟨k, false, [], false, 0, 0, 0, true⟩], ⟨maxProc, maxProc, false, 0⟩,
          [⟨k, .acquiring 0⟩, ⟨k, .ready⟩]⟩ := by
      refine Step.registerOwner _ 0 ⟨k, .ready⟩ ?_ rfl ?_ <;> simp
    have st2 : Step cap ⟨[⟨k, false, [], false, 0, 0, 0, true⟩],
        ⟨maxProc, maxProc, false, 0⟩, [⟨k, .acquiring 0⟩, ⟨k, .ready⟩]⟩
        ⟨[⟨k, false, [], false, 0, 0, 0, true⟩], ⟨maxProc, maxProc - 1, false, 0⟩,
          [⟨k, .invoking 0⟩, ⟨k, .ready⟩]⟩ := by
      refine Step.acquire _ 0 0 ⟨k, .acquiring 0⟩ ?_ rfl hm
      simp
    have st3 : Step cap ⟨[⟨k, false, [], false, 0, 0, 0, true⟩],
        ⟨maxProc, maxProc - 1, false, 0⟩, [⟨k, .invoking 0⟩, ⟨k, .ready⟩]⟩
        ⟨[⟨k, false, v, b, 0, 1, 1, true⟩], ⟨maxProc, maxProc - 1, false, 0⟩,
          [⟨k, .releasing 0⟩, ⟨k, .ready⟩]⟩ := by
      refine Step.invokeOk _ 0 0 ⟨k, .invoking 0⟩
        ⟨k, false, [], false, 0, 0, 0, true⟩ v b ?_ rfl ?_ hcap <;> simp
    have st4 : Step cap ⟨[⟨k, false, v, b, 0, 1, 1, true⟩],
        ⟨maxProc, maxProc - 1, false, 0⟩, [⟨k, .releasing 0⟩, ⟨k, .ready⟩]⟩
        ⟨[⟨k, false, v, b, 0, 1, 1, true⟩], ⟨maxProc, maxProc - 1 + 1, false, 0⟩,
          [⟨k, .closing 0⟩, ⟨k, .ready⟩]⟩ := by
      refine Step.release _ 0 0 ⟨k, .releasing 0⟩ ?_ rfl
      simp
    have st5 : Step cap ⟨[⟨k, false, v, b, 0, 1, 1, true⟩],
        ⟨maxProc, maxProc - 1 + 1, false, 0⟩, [⟨k, .closing 0⟩, ⟨k, .ready⟩]⟩
        ⟨[⟨k, true, v, b, 0, 1, 1, true⟩], ⟨maxProc, maxProc - 1 + 1, false, 0⟩,
          [⟨k, .deleting 0⟩, ⟨k, .ready⟩]⟩ := by
      refine Step.closeDone _ 0 0 ⟨k, .closing 0⟩
        ⟨k, false, v, b, 0, 1, 1, true⟩ ?_ rfl ?_ <;> simp
    exact Relation.ReflTransGen.head st1 (Relation.ReflTransGen.head st2
      (Relation.ReflTransGen.head st3 (Relation.ReflTransGen.head st4
        (Relation.ReflTransGen.single st5))))
  · simp [totalInvocations]
  · refine Step.registerWaiter _ 1 0 ⟨k, .ready⟩
      ⟨k, true, v, b, 0, 1, 1, true⟩ ?_ rfl ?_ rfl rfl <;> simp
  · refine Step.waitDone _ 1 0 ⟨k, .waiting 0⟩
      ⟨k, true, v, b, 0, 1, 1, true⟩ ?_ rfl ?_ rfl <;> simp
  · simp [totalInvocations]

/-- Witness for C9 at a concrete input. -/
theorem late_waiter_zero_invocations_witness :
    (0 < 1 ∧ (fun _ => some ([9], true) : Capability) "z" = some ([9], true))
    ∧ ∃ sMid s2 s3,
        Reach (fun _ => some ([9], true)) (initLoader 1 ["z", "z"]) sMid
        ∧ sMid.threads[1]? = some ⟨"z", .ready⟩
        ∧ (∃ r, sMid.recs[0]? = some r ∧ r.done = true ∧ r.inMap = true
            ∧ r.value = [9] ∧ r.ok = true)
        ∧ totalInvocations sMid "z" = 1
        ∧ Step (fun _ => some ([9], true)) sMid s2
        ∧ s2.threads[1]? = some ⟨"z", .waiting 0⟩
        ∧ s2.recs = sMid.recs
        ∧ Step (fun _ => some ([9], true)) s2 s3
        ∧ s3.threads[1]? = some ⟨"z", .finished 0 [9] true⟩
        ∧ s3.recs = sMid.recs
        ∧ totalInvocations s3 "z" = 1 :=
  ⟨⟨by decide, rfl⟩,
    late_waiter_zero_invocations (fun _ => some ([9], true)) 1 "z" [9] true
      (by decide) rfl⟩

end ProxyCache
